import Mathlib

/-!
# Verification of the FluidC+ community-detection core

Shallow embedding of `src/fluidc_plus.py` (functions `fluidc_modified` and
`fluidc_plus`) and `src/utils.py` (`_invert_dict`, `nodes_color`).

Python dicts are modelled as insertion-ordered association lists with unique
keys (`dget` / `dset`), floats as exact rationals, raised exceptions as an
`Except` error monad, and the external random source and similarity scorer as
explicit functional parameters.
-/

namespace FluidC

/-- Python runtime errors that the core can raise. -/
inductive PyErr where
  | zeroDivisionError
  | keyError
  | indexError
  deriving Repr, DecidableEq

/-- Dict lookup: value of the first (unique) entry with the given key,
`none` when the key is absent (a bare Python lookup raises `KeyError`). -/
def dget {α β : Type} [DecidableEq α] (d : List (α × β)) (k : α) : Option β :=
  match d with
  | [] => none
  | p :: rest => if p.1 = k then some p.2 else dget rest k

/-- Dict assignment `d[k] = v`: replaces the value in place when the key is
present (preserving insertion order), appends a fresh entry otherwise. -/
def dset {α β : Type} [DecidableEq α] (d : List (α × β)) (k : α) (v : β) : List (α × β) :=
  match d with
  | [] => [(k, v)]
  | p :: rest => if p.1 = k then (k, v) :: rest else p :: dset rest k v

/-- `collections.Counter.update({c: w})`: add `w` to the accumulated weight of
`c` (0 when absent, the new key is appended in insertion order). -/
def cupd (cnt : List (Int × Rat)) (c : Int) (w : Rat) : List (Int × Rat) :=
  match dget cnt c with
  | some w0 => dset cnt c (w0 + w)
  | none => cnt ++ [(c, w)]

/-- Maximum of a list of rationals (`max(...)`; only ever applied to a
non-empty list in the source). -/
def listMax : List Rat → Rat
  | [] => 0
  | x :: xs => xs.foldl max x

/-- Static undirected graph: vertices are `0 .. n-1`; `adj v` is the neighbour
list returned by `G[v]`, in the graph's iteration order. -/
structure Graph where
  n : Nat
  adj : Nat → List Nat

/-- Degree of a vertex, as used by `G.degree`. -/
def Graph.degree (G : Graph) (v : Nat) : Nat := (G.adj v).length

/-- The three mutable mappings owned by one propagation run: the
vertex-to-community dict, the community density dict and the community
member-count dict (all Python dicts, insertion ordered). -/
structure EngState where
  communities : List (Nat × Int)
  density : List (Int × Rat)
  com_to_numvertices : List (Int × Int)
  deriving Repr, DecidableEq

/-- Vote accumulation for one vertex (`com_counter` in `fluidc_modified`):
the vertex's own community votes with its density, then each neighbour's
community votes with its density; a missing label or missing density entry
contributes nothing (the `KeyError` is silently swallowed). -/
def buildCounter (G : Graph) (s : EngState) (vertex : Nat) : List (Int × Rat) :=
  let c0 : List (Int × Rat) :=
    match dget s.communities vertex with
    | some c =>
      match dget s.density c with
      | some w => cupd [] c w
      | none => []
    | none => []
  (G.adj vertex).foldl (fun acc v =>
    match dget s.communities v with
    | some c =>
      match dget s.density c with
      | some w => cupd acc c w
      | none => acc
    | none => acc) c0

/-- The near-tie tolerance `0.0001` used in the winner selection. -/
def nearTieTol : Rat := 1 / 10000

/-- Candidate ("best") communities for a counter: those whose accumulated
weight is strictly within `nearTieTol` of the maximum accumulated weight
(`best_communities` in `fluidc_modified`), in counter order. -/
def bestComs (cnt : List (Int × Rat)) : List Int :=
  (cnt.filter (fun p => listMax (cnt.map Prod.snd) - p.2 < nearTieTol)).map Prod.fst

/-- `best_communities[np.argmin(com_densities)]` over (community, density)
pairs: the first pair attaining the minimal density wins (`np.argmin` returns
the first index of the minimum, so a later pair replaces the current best only
on a strictly smaller density). -/
def argminPair (p : Int × Rat) : List (Int × Rat) → Int × Rat
  | [] => p
  | q :: rest => if q.2 < p.2 then argminPair q rest else argminPair p rest

/-- The list `[max_density / com_to_numvertices[b] for b in best]`, raising
`KeyError` on a missing count and `ZeroDivisionError` on a zero count. -/
def comDensities (md : Rat) (counts : List (Int × Int)) :
    List Int → Except PyErr (List (Int × Rat))
  | [] => .ok []
  | b :: rest =>
    match dget counts b with
    | none => .error .keyError
    | some nb =>
      if nb = 0 then .error .zeroDivisionError
      else
        match comDensities md counts rest with
        | .error e => .error e
        | .ok l => .ok ((b, md / (nb : Rat)) :: l)

/-- The bookkeeping block executed on a label change ("Update previous
community status" / "Update new community status" in `fluidc_modified`):
decrement the departed community's count and recompute its density inside a
`try/except KeyError`, with the division unprotected; then assign the new
label and increment / recompute for the adopted community, both lookups and
the division unprotected. Always pairs the state with `cont = True`. -/
def applyRelabel (md : Rat) (s : EngState) (vertex : Nat) (new_com : Int) :
    Except PyErr (EngState × Bool) :=
  -- try: decrement departed community, recompute its density
  let dec : Except PyErr EngState :=
    match dget s.communities vertex with
    | none => .ok s
    | some old =>
      match dget s.com_to_numvertices old with
      | none => .ok s
      | some nOld =>
        let nOld' : Int := nOld - 1
        if nOld' = 0 then .error .zeroDivisionError
        else .ok { s with
          com_to_numvertices := dset s.com_to_numvertices old nOld',
          density := dset s.density old (md / (nOld' : Rat)) }
  match dec with
  | .error e => .error e
  | .ok s1 =>
    -- communities[vertex] = new_com; increment adopted community
    let s2 := { s1 with communities := dset s1.communities vertex new_com }
    match dget s2.com_to_numvertices new_com with
    | none => .error .keyError
    | some m =>
      let m' : Int := m + 1
      if m' = 0 then .error .zeroDivisionError
      else .ok ({ s2 with
        com_to_numvertices := dset s2.com_to_numvertices new_com m',
        density := dset s2.density new_com (md / (m' : Rat)) }, true)

/-- The per-vertex body of a pass in `fluidc_modified`: build the vote
counter; when it is non-empty select the winning community (keep the current
label when it is among the candidates, otherwise prefer the candidate with
minimal density = maximal member count), and on a label change update the
departed community's bookkeeping (``KeyError`` swallowed, the division is
unprotected) and the adopted community's bookkeeping (both unprotected).
Returns the new state and the `cont` flag. -/
def updateVertex (G : Graph) (md : Rat) (s : EngState) (vertex : Nat) (cont : Bool) :
    Except PyErr (EngState × Bool) :=
  let cnt := buildCounter G s vertex
  if cnt.isEmpty then .ok (s, cont)
  else
    let best := bestComs cnt
    -- `new_com` stays -1 unless the current label is among the candidates
    let new_com1 : Int :=
      match dget s.communities vertex with
      | some c => if best.contains c then c else -1
      | none => -1
    if new_com1 ≠ -1 then .ok (s, cont)
    else
      -- label change: pick the new community
      let pick : Except PyErr Int :=
        if best.length > 1 then
          match comDensities md s.com_to_numvertices best with
          | .error e => .error e
          | .ok [] => .error .indexError
          | .ok (p :: rest) => .ok (argminPair p rest).1
        else
          match best with
          | [] => .error .indexError
          | b :: _ => .ok b
      match pick with
      | .error e => .error e
      | .ok new_com => applyRelabel md s vertex new_com

/-- One full pass over the visit order (the `for vertex in vertices` loop). -/
def runPass (G : Graph) (md : Rat) (vertices : List Nat) (s : EngState) (cont : Bool) :
    Except PyErr (EngState × Bool) :=
  match vertices with
  | [] => .ok (s, cont)
  | v :: rest =>
    match updateVertex G md s v cont with
    | .error e => .error e
    | .ok (s', cont') => runPass G md rest s' cont'

/-- The `while cont` loop of `fluidc_modified`: reset `cont`, bump
`iter_count`, run a pass; break unconditionally once `iter_count` exceeds
`max_iter`, otherwise loop again iff some vertex changed label. Returns the
final state and the number of passes executed. -/
def engineLoop (G : Graph) (md : Rat) (vertices : List Nat) (s : EngState)
    (iter_count max_iter : Nat) : Except PyErr (EngState × Nat) :=
  match runPass G md vertices s false with
  | .error e => .error e
  | .ok (s', cont) =>
    if h : max_iter < iter_count + 1 then .ok (s', iter_count + 1)
    else if cont then engineLoop G md vertices s' (iter_count + 1) max_iter
    else .ok (s', iter_count + 1)
termination_by max_iter + 1 - iter_count
decreasing_by omega

/-- `_invert_dict` from `src/utils.py`: group the keys of a dict by value,
preserving both the order in which values first appear and the order of keys
within one group. -/
def invert_dict (d : List (Nat × Int)) : List (Int × List Nat) :=
  d.foldl (fun acc p =>
    match dget acc p.2 with
    | some l => dset acc p.2 (l ++ [p.1])
    | none => acc ++ [(p.2, [p.1])]) []

/-- `fluidc_modified`: run the propagation loop and return the grouping
`list(_invert_dict(communities).values())` together with the final
bookkeeping state (mutated in place in the source) and the pass count. -/
def fluidc_modified (G : Graph) (vertices : List Nat) (communities : List (Nat × Int))
    (density : List (Int × Rat)) (md : Rat) (com_to_numvertices : List (Int × Int))
    (max_iter : Nat) : Except PyErr (List (List Nat) × EngState × Nat) :=
  match engineLoop G md vertices ⟨communities, density, com_to_numvertices⟩ 0 max_iter with
  | .error e => .error e
  | .ok (s', passes) => .ok ((invert_dict s'.communities).map Prod.snd, s', passes)

/-! ## Restart Controller (`fluidc_plus`) -/

/-- The constant `max_density = 1.0` of `fluidc_plus`. -/
def max_density : Rat := 1

/-- `nodes_color` from `src/utils.py`: flatten a grouping into one colour per
vertex (vertices are `0 .. n-1`; a vertex absent from all groups keeps the
initial colour 0). -/
def nodes_color (n : Nat) (communities : List (List Nat)) : List Int :=
  communities.enum.foldl
    (fun color_list p => p.2.foldl (fun cl j => cl.set j (p.1 : Int)) color_list)
    (List.replicate n (0 : Int))

/-- Python dict union `d1 | d2`: entries of `d2` override / append to `d1`. -/
def dunion (d1 d2 : List (Nat × Int)) : List (Nat × Int) :=
  d2.foldl (fun acc p => dset acc p.1 p.2) d1

/-- `{n: i for i, n in enumerate(vertices[:k])}`: the initial random seed
dict, mapping the `i`-th drawn vertex to community `i`. -/
def buildSeedDict (vs : List Nat) : List (Nat × Int) :=
  vs.enum.foldl (fun acc p => dset acc p.2 (p.1 : Int)) []

/-- The degree-sorted visit order: `sorted(G.degree, key=deg, reverse=True)`
(Python's sort is stable, so equal degrees keep vertex order). -/
def sortedVertices (G : Graph) : List Nat :=
  (List.range G.n).mergeSort (fun a b => decide (G.degree b ≤ G.degree a))

/-- The seed/density initialization at the top of each restart:
`for v in seed_set: com_to_numvertices[seed_set[v]] = 1; density[seed_set[v]] = max_density`.
Iterating a dict yields its keys; `seed_set[v]` is the paired value (dict keys
are unique). The two bookkeeping dicts are mutated in place, never recreated. -/
def seedInit (md : Rat) (seed_set : List (Nat × Int)) (density : List (Int × Rat))
    (counts : List (Int × Int)) : List (Int × Rat) × List (Int × Int) :=
  seed_set.foldl (fun dc p => (dset dc.1 p.2 md, dset dc.2 p.2 1)) (density, counts)

/-- External collaborators: the seedable random source. `shuffle` is the
result of `random.shuffle` on the vertex list; `pick t` is the raw draw used
by the `t`-th call of `random.choice(lst)` (the element taken is
`lst[pick t % len(lst)]`). -/
structure RandomOracle where
  shuffle : List Nat → List Nat
  pick : Nat → Nat

/-- The "bad restart" gate of `fluidc_plus` (lines 171-177): skipped on the
first restart; otherwise the similarity score is computed and recorded, and
exactly when it is strictly below the running minimum the current seed set is
merged into the bad-seed history, the bad-restart counter is bumped and the
minimum is updated. Returns `(min_NMI, bad_seed_set, seed_init_num, nmi_list)`. -/
def scoreGate (scorer : List Int → List Int → Rat) (iter : Nat) (new_list : List Int)
    (old : Option (List Int)) (min_NMI : Rat) (bad : List (Nat × Int))
    (seed : List (Nat × Int)) (seed_init_num : Nat) (nmi_list : List Rat) :
    Rat × List (Nat × Int) × Nat × List Rat :=
  if iter ≠ 0 then
    let NMI := scorer new_list (old.getD [])
    let nmi_list' := nmi_list ++ [NMI]
    if scorer new_list (old.getD []) < min_NMI then
      (NMI, dunion bad seed, seed_init_num + 1, nmi_list')
    else (min_NMI, bad, seed_init_num, nmi_list')
  else (min_NMI, bad, seed_init_num, nmi_list)

/-- Candidate pool for one community during seed derivation:
`list(set(current_community) - set(removed_list))` (group entries are
pairwise distinct, so only set difference matters; the arbitrary set order is
canonicalised, the random draw below absorbs it). -/
def seedPool (group removed : List Nat) : List Nat :=
  group.dedup.filter (fun v => !(removed.contains v))

/-- The seed-derivation loop of `fluidc_plus` (lines 183-199): walk the
community index; draw a random vertex from the community's pool minus the
vertices rejected so far; a vertex in the bad-seed history is rejected and
redrawn, otherwise it seeds this community and the rejection list resets.
An empty pool aborts (Python sets `seed_init_num = 10` and breaks).
Returns `(seed_set, exhausted, next draw time)`. -/
def seedLoop (pick : Nat → Nat) (groups : List (List Nat)) (bad : List (Nat × Int))
    (seed_set : List (Nat × Int)) (community_idx : Nat) (removed : List Nat) (t : Nat) :
    List (Nat × Int) × Bool × Nat :=
  if h : community_idx < groups.length then
    let pool := seedPool (groups.getD community_idx []) removed
    if hp : pool = [] then (seed_set, true, t)
    else
      let new_v := pool.getD (pick t % pool.length) 0
      if (bad.map Prod.fst).contains new_v then
        seedLoop pick groups bad seed_set community_idx (removed ++ [new_v]) (t + 1)
      else
        seedLoop pick groups bad (dset seed_set new_v (community_idx : Int))
          (community_idx + 1) [] (t + 1)
  else (seed_set, false, t)
termination_by (groups.length - community_idx, (seedPool (groups.getD community_idx []) removed).length)
decreasing_by
  · apply Prod.Lex.right
    have hmem : new_v ∈ pool := by
      have hlen : pick t % pool.length < pool.length :=
        Nat.mod_lt _ (List.length_pos.mpr hp)
      simp only [new_v, List.getD_eq_getElem?_getD, List.getElem?_eq_getElem hlen,
        Option.getD_some]
      exact List.getElem_mem hlen
    have hsub : seedPool (groups.getD community_idx []) (removed ++ [new_v])
        = pool.filter (fun v => !(decide (v = new_v))) := by
      simp only [seedPool, pool, List.filter_filter]
      apply List.filter_congr
      intro x _
      simp [List.contains, List.elem_eq_mem, Bool.and_comm, eq_comm]
    rw [hsub]
    apply List.length_filter_lt_length_iff_exists.mpr
    exact ⟨new_v, hmem, by simp⟩
  · apply Prod.Lex.left
    omega

/-- The mutable state of the restart loop in `fluidc_plus`, one field per
local variable; `t` is the position in the random draw stream. -/
structure CtrlState where
  seed_set : List (Nat × Int)
  bad_seed_set : List (Nat × Int)
  density : List (Int × Rat)
  com_to_numvertices : List (Int × Int)
  min_NMI : Rat
  seed_init_num : Nat
  iter : Nat
  old_communities : Option (List Int)
  new_communities : Option (List (List Nat))
  nmi_list : List Rat
  t : Nat
  deriving Repr

/-- The tail of one iteration of the restart loop, after the engine call
succeeded: NMI computation and gating, `old_communities` update, next-seed
derivation (possibly forcing `seed_init_num` to 10 on pool exhaustion) and
the `iter` increment. `es` is the bookkeeping state the engine mutated in
place. -/
def restartFinish (n : Nat) (scorer : List Int → List Int → Rat) (oracle : RandomOracle)
    (s : CtrlState) (new_communities : List (List Nat)) (es : EngState) : CtrlState :=
  let new_list := nodes_color n new_communities
  let gated := scoreGate scorer s.iter new_list s.old_communities s.min_NMI
    s.bad_seed_set s.seed_set s.seed_init_num s.nmi_list
  let drawn := seedLoop oracle.pick new_communities gated.2.1 [] 0 [] s.t
  { seed_set := drawn.1,
    bad_seed_set := gated.2.1,
    density := es.density,
    com_to_numvertices := es.com_to_numvertices,
    min_NMI := gated.1,
    seed_init_num := if drawn.2.1 then 10 else gated.2.2.1,
    iter := s.iter + 1,
    old_communities := some new_list,
    new_communities := some new_communities,
    nmi_list := gated.2.2.2,
    t := drawn.2.2 }

/-- One full iteration of the restart loop: seed/density initialization
(mutating the bookkeeping dicts in place), the engine call on a copy of the
seed set, then `restartFinish`. -/
def restartStep (G : Graph) (max_iter : Nat) (scorer : List Int → List Int → Rat)
    (oracle : RandomOracle) (s : CtrlState) : Except PyErr CtrlState :=
  match fluidc_modified G (sortedVertices G) s.seed_set
      (seedInit max_density s.seed_set s.density s.com_to_numvertices).1 max_density
      (seedInit max_density s.seed_set s.density s.com_to_numvertices).2 max_iter with
  | .error e => .error e
  | .ok (new_communities, es, _passes) =>
    .ok (restartFinish G.n scorer oracle s new_communities es)

/-- The `while seed_init_num < 10 and iter < max_iter` loop. -/
def ctrlLoop (G : Graph) (max_iter : Nat) (scorer : List Int → List Int → Rat)
    (oracle : RandomOracle) (s : CtrlState) : Except PyErr CtrlState :=
  if hc : s.seed_init_num < 10 ∧ s.iter < max_iter then
    match hs : restartStep G max_iter scorer oracle s with
    | .error e => .error e
    | .ok s' => ctrlLoop G max_iter scorer oracle s'
  else .ok s
termination_by max_iter - s.iter
decreasing_by
  unfold restartStep at hs
  rcases hfm : fluidc_modified G (sortedVertices G) s.seed_set
      (seedInit max_density s.seed_set s.density s.com_to_numvertices).1 max_density
      (seedInit max_density s.seed_set s.density s.com_to_numvertices).2 max_iter with _ | p
  · rw [hfm] at hs; simp at hs
  · rw [hfm] at hs
    simp only [Except.ok.injEq] at hs
    have : s'.iter = s.iter + 1 := by rw [← hs]; rfl
    omega

/-- The state of `fluidc_plus` just before its restart loop: the shuffled
initial seed dict, the bad-seed history pre-seeded with it
(`bad_seed_set = {} | seed_set`), empty bookkeeping dicts, `min_NMI = 1`,
all counters zero, no previous partition. -/
def ctrlInit (G : Graph) (k : Nat) (oracle : RandomOracle) : CtrlState :=
  let vertices := oracle.shuffle (List.range G.n)
  let seed_set := buildSeedDict (vertices.take k)
  { seed_set := seed_set,
    bad_seed_set := dunion [] seed_set,
    density := [],
    com_to_numvertices := [],
    min_NMI := 1,
    seed_init_num := 0,
    iter := 0,
    old_communities := none,
    new_communities := none,
    nmi_list := [],
    t := 0 }

/-- `fluidc_plus`, exposing the full final loop state. -/
def fluidc_plus_state (G : Graph) (k : Nat) (max_iter : Nat)
    (scorer : List Int → List Int → Rat) (oracle : RandomOracle) :
    Except PyErr CtrlState :=
  ctrlLoop G max_iter scorer oracle (ctrlInit G k oracle)

/-- `fluidc_plus(G, k, max_iter)`: the Python return value `new_communities`
(`none` when the loop body never ran). -/
def fluidc_plus (G : Graph) (k : Nat) (max_iter : Nat)
    (scorer : List Int → List Int → Rat) (oracle : RandomOracle) :
    Except PyErr (Option (List (List Nat))) :=
  match fluidc_plus_state G k max_iter scorer oracle with
  | .error e => .error e
  | .ok s => .ok s.new_communities

/-! ## Derived predicates and concrete instances -/

/-- The key list of a dict, in insertion order. -/
def keys {α β : Type} (d : List (α × β)) : List α := d.map Prod.fst

/-- Number of entries of a vertex-to-community dict carrying a given label
(the true member count of community `c`). -/
def countVal (d : List (Nat × Int)) (c : Int) : Nat :=
  (d.filter (fun p => p.2 = c)).length

/-- Values of a dict in order of first appearance, excluding `seen`. -/
def firstLabelsEx (seen : List Int) : List (Nat × Int) → List Int
  | [] => []
  | p :: rest =>
    if seen.contains p.2 then firstLabelsEx seen rest
    else p.2 :: firstLabelsEx (seen ++ [p.2]) rest

/-- Values of a vertex-to-community dict in order of first appearance: the
order in which `_invert_dict` creates its groups. -/
def firstLabels (d : List (Nat × Int)) : List Int := firstLabelsEx [] d

/-- C2's invariant: wherever the member count is present and positive, the
recorded density is exactly `max_density / count`. -/
def DensityInv (md : Rat) (density : List (Int × Rat)) (counts : List (Int × Int)) : Prop :=
  ∀ c n, dget counts c = some n → 0 < n →
    dget density c = some (md / (n : Rat))

/-- All labels assigned by a labeling dict lie in `[0, k)`. -/
def LabelsInRange (k : Nat) (communities : List (Nat × Int)) : Prop :=
  ∀ p ∈ communities, 0 ≤ p.2 ∧ p.2 < (k : Int)

/-- A community dict (density or count) holds exactly the keys `0 .. k-1`. -/
def KeysRange {β : Type} (k : Nat) (d : List (Int × β)) : Prop :=
  ∀ c : Int, c ∈ keys d ↔ 0 ≤ c ∧ c < (k : Int)

/-- The recorded member counts agree with the actual labeling. -/
def SyncInv (communities : List (Nat × Int)) (counts : List (Int × Int)) : Prop :=
  ∀ c n, dget counts c = some n → n = (countVal communities c : Int)

/-- All recorded member counts are at least 1. -/
def CountsPos (counts : List (Int × Int)) : Prop :=
  ∀ c n, dget counts c = some n → 1 ≤ n

/-- Well-formedness of an engine state with `k` communities: density keys
within `0 .. k-1`, count keys exactly `0 .. k-1`, labels in range, the
labeling dict with unique keys, counts positive and synchronised with the
labeling. -/
def EngGood (k : Nat) (s : EngState) : Prop :=
  (∀ c ∈ keys s.density, 0 ≤ c ∧ c < (k : Int)) ∧
    KeysRange k s.com_to_numvertices ∧
    LabelsInRange k s.communities ∧ (keys s.communities).Nodup ∧
    SyncInv s.communities s.com_to_numvertices ∧ CountsPos s.com_to_numvertices

/-- Controller-level well-formedness between restarts: the seed dict has
unique keys and its values are exactly `0, 1, …, k-1` in order, and the two
bookkeeping dicts hold keys within `0 .. k-1` only. -/
def CtrlGood (k : Nat) (s : CtrlState) : Prop :=
  (keys s.seed_set).Nodup ∧ s.seed_set.map Prod.snd = (List.range k).map Int.ofNat ∧
    (∀ c ∈ keys s.density, 0 ≤ c ∧ c < (k : Int)) ∧
    (∀ c ∈ keys s.com_to_numvertices, 0 ≤ c ∧ c < (k : Int))

/-- The 4-cycle `0-1-2-3-0` from the spec's end-to-end scenario (§8). -/
def ringG : Graph :=
  ⟨4, fun v =>
    if v = 0 then [1, 3] else if v = 1 then [0, 2]
    else if v = 2 then [1, 3] else if v = 3 then [2, 0] else []⟩

/-- The single edge `0-1`, used to exercise the engine at its public
interface with initial labels whose insertion order disagrees with the
label values. -/
def pathG2 : Graph :=
  ⟨2, fun v => if v = 0 then [1] else if v = 1 then [0] else []⟩

/-- A 3-vertex star centred at 0, used to reach the unprotected division:
with out-of-sync bookkeeping, vertex 0 is the sole counted member of
community 0 and departs to community 1. -/
def starG3 : Graph :=
  ⟨3, fun v =>
    if v = 0 then [1, 2] else if v = 1 then [0] else if v = 2 then [0] else []⟩

/-- A deterministic random source: the identity shuffle and a draw stream
that always returns index 0. -/
def oracle0 : RandomOracle := ⟨id, fun _ => 0⟩

/-- The synthetic similarity scorer stub that always returns 0 (§8's restart
cap scenario). -/
def zeroScorer : List Int → List Int → Rat := fun _ _ => 0

/-! ## Dictionary lemmas -/

theorem dget_dset_self {α β : Type} [DecidableEq α] (d : List (α × β)) (k : α) (v : β) :
    dget (dset d k v) k = some v := by
  induction d with
  | nil => simp [dget, dset]
  | cons p rest ih =>
    by_cases h : p.1 = k
    · simp [dget, dset, h]
    · simp [dget, dset, h, ih]

theorem dget_dset_ne {α β : Type} [DecidableEq α] (d : List (α × β)) {k k' : α} (v : β)
    (h : k' ≠ k) : dget (dset d k v) k' = dget d k' := by
  induction d with
  | nil =>
    simp only [dset, dget]
    rw [if_neg (fun hh => h hh.symm)]
  | cons p rest ih =>
    by_cases hp : p.1 = k
    · subst hp
      have hne : ¬ p.1 = k' := fun hh => h hh.symm
      simp only [dset, if_pos rfl, dget, hne, if_false, if_neg hne]
    · simp only [dset, hp, if_false, if_neg hp, dget]
      by_cases hp' : p.1 = k'
      · simp [hp']
      · simp [hp', ih]

theorem keys_dset_of_mem {α β : Type} [DecidableEq α] {d : List (α × β)} {k : α} (v : β) :
    k ∈ keys d → keys (dset d k v) = keys d := by
  induction d with
  | nil => intro h; simp [keys] at h
  | cons p rest ih =>
    intro h
    by_cases hp : p.1 = k
    · simp [keys, dset, hp]
    · have hrest : k ∈ keys rest := by
        rcases (by simpa [keys] using h : k = p.1 ∨ ∃ x, (k, x) ∈ rest) with h' | ⟨x, hx⟩
        · exact absurd h'.symm hp
        · exact List.mem_map.mpr ⟨(k, x), hx, rfl⟩
      simp only [keys, dset, hp, if_false, if_neg hp, List.map_cons]
      have := ih hrest
      simp only [keys] at this
      rw [this]

theorem keys_dset_of_not_mem {α β : Type} [DecidableEq α] {d : List (α × β)} {k : α} (v : β) :
    k ∉ keys d → keys (dset d k v) = keys d ++ [k] := by
  induction d with
  | nil => intro _; simp [keys, dset]
  | cons p rest ih =>
    intro h
    have hp : p.1 ≠ k := by
      intro hh
      exact h (by simp [keys, hh])
    have hrest : k ∉ keys rest := by
      intro hh
      exact h (by simp [keys] at hh ⊢; exact Or.inr hh)
    simp only [keys, dset, hp, if_false, if_neg hp, List.map_cons]
    have := ih hrest
    simp only [keys] at this
    rw [this]
    simp

theorem mem_keys_dset {α β : Type} [DecidableEq α] {d : List (α × β)} {k k' : α} (v : β) :
    k' ∈ keys (dset d k v) ↔ k' ∈ keys d ∨ k' = k := by
  by_cases h : k ∈ keys d
  · rw [keys_dset_of_mem v h]
    constructor
    · exact Or.inl
    · rintro (hh | rfl) <;> [exact hh; exact h]
  · rw [keys_dset_of_not_mem v h]
    simp

theorem nodup_keys_dset {α β : Type} [DecidableEq α] {d : List (α × β)} {k : α} (v : β)
    (h : (keys d).Nodup) : (keys (dset d k v)).Nodup := by
  by_cases hm : k ∈ keys d
  · rwa [keys_dset_of_mem v hm]
  · rw [keys_dset_of_not_mem v hm]
    simpa [List.nodup_append] using ⟨h, hm⟩

theorem mem_keys {α β : Type} (d : List (α × β)) (k : α) :
    k ∈ keys d ↔ ∃ v, (k, v) ∈ d := by
  constructor
  · intro h
    rcases List.mem_map.mp h with ⟨p, hp, he⟩
    exact ⟨p.2, by rwa [show (k, p.2) = p from Prod.ext he.symm rfl]⟩
  · rintro ⟨v, hv⟩
    exact List.mem_map.mpr ⟨(k, v), hv, rfl⟩

theorem dget_isSome_iff {α β : Type} [DecidableEq α] (d : List (α × β)) (k : α) :
    (dget d k).isSome ↔ k ∈ keys d := by
  induction d with
  | nil => simp [dget, keys]
  | cons p rest ih =>
    by_cases hp : p.1 = k
    · simp [dget, keys, hp]
    · rw [mem_keys]
      simp only [dget, hp, if_false, if_neg hp]
      rw [ih, mem_keys]
      constructor
      · rintro ⟨v, hv⟩
        exact ⟨v, List.mem_cons_of_mem _ hv⟩
      · rintro ⟨v, hv⟩
        rcases List.mem_cons.mp hv with he | hm
        · exact absurd (congrArg Prod.fst he).symm hp
        · exact ⟨v, hm⟩

theorem dget_eq_none_iff {α β : Type} [DecidableEq α] (d : List (α × β)) (k : α) :
    dget d k = none ↔ k ∉ keys d := by
  rw [← dget_isSome_iff]
  cases dget d k <;> simp

theorem dget_mem {α β : Type} [DecidableEq α] {d : List (α × β)} {k : α} {v : β}
    (h : dget d k = some v) : (k, v) ∈ d := by
  induction d with
  | nil => simp [dget] at h
  | cons p rest ih =>
    by_cases hp : p.1 = k
    · have hv : p.2 = v := by simpa [dget, hp] using h
      have hpe : p = (k, v) := Prod.ext hp hv
      rw [← hpe]
      exact List.mem_cons_self _ _
    · simp only [dget, hp, if_false, if_neg hp] at h
      exact List.mem_cons_of_mem _ (ih h)

theorem dget_eq_of_mem_nodup {α β : Type} [DecidableEq α] {d : List (α × β)} {p : α × β}
    (hm : p ∈ d) (hn : (keys d).Nodup) : dget d p.1 = some p.2 := by
  induction d with
  | nil => simp at hm
  | cons q rest ih =>
    simp only [keys, List.map_cons, List.nodup_cons] at hn
    rcases List.mem_cons.mp hm with rfl | hm'
    · simp [dget]
    · have hne : q.1 ≠ p.1 := by
        intro hh
        exact hn.1 (by rw [hh]; exact List.mem_map.mpr ⟨p, hm', rfl⟩)
      simp only [dget, hne, if_neg, if_false]
      exact ih hm' hn.2

theorem countVal_cons (p : Nat × Int) (d : List (Nat × Int)) (c : Int) :
    countVal (p :: d) c = (if p.2 = c then 1 else 0) + countVal d c := by
  by_cases hc : p.2 = c <;> simp [countVal, List.filter, hc] <;> omega

theorem countVal_dset_of_none {d : List (Nat × Int)} {k : Nat} (v : Int) (c : Int) :
    dget d k = none →
      countVal (dset d k v) c = countVal d c + (if v = c then 1 else 0) := by
  induction d with
  | nil =>
    intro _
    by_cases hv : v = c <;> simp [countVal, dset, List.filter, hv]
  | cons p rest ih =>
    intro h
    have hp : p.1 ≠ k := by
      intro hh
      simp [dget, hh] at h
    have hrest : dget rest k = none := by
      simpa [dget, hp] using h
    simp only [dset, hp, if_false, if_neg hp, countVal_cons, ih hrest]
    omega

theorem countVal_dset_of_some {d : List (Nat × Int)} {k : Nat} {y : Int} (v : Int) (c : Int) :
    dget d k = some y →
      countVal (dset d k v) c + (if y = c then 1 else 0)
        = countVal d c + (if v = c then 1 else 0) := by
  induction d with
  | nil => intro h; simp [dget] at h
  | cons p rest ih =>
    intro h
    by_cases hp : p.1 = k
    · have hy : p.2 = y := by simpa [dget, hp] using h
      subst hy
      have hd : dset (p :: rest) k v = (k, v) :: rest := by simp [dset, hp]
      rw [hd, countVal_cons, countVal_cons, show ((k, v)).2 = v from rfl]
      omega
    · have hrest : dget rest k = some y := by simpa [dget, hp] using h
      simp only [dset, hp, if_false, if_neg hp, countVal_cons]
      have := ih hrest
      omega

/-! ## Vote counter and winner-selection lemmas -/

theorem le_foldl_max (l : List Rat) (b : Rat) : b ≤ l.foldl max b := by
  induction l generalizing b with
  | nil => exact le_refl b
  | cons x xs ih => exact le_trans (le_max_left b x) (ih (max b x))

theorem foldl_max_le_of_mem {l : List Rat} {x : Rat} :
    ∀ b : Rat, x ∈ l → x ≤ l.foldl max b := by
  induction l with
  | nil => intro b h; simp at h
  | cons y ys ih =>
    intro b h
    rcases List.mem_cons.mp h with rfl | h'
    · exact le_trans (le_max_right b x) (le_foldl_max ys (max b x))
    · exact ih (max b y) h'

theorem foldl_max_mem (l : List Rat) (b : Rat) : l.foldl max b = b ∨ l.foldl max b ∈ l := by
  induction l generalizing b with
  | nil => exact Or.inl rfl
  | cons x xs ih =>
    rcases ih (max b x) with h | h
    · rcases max_cases b x with ⟨he, _⟩ | ⟨he, _⟩
      · left; rw [List.foldl_cons, h, he]
      · right; rw [List.foldl_cons, h, he]; exact List.mem_cons_self x xs
    · right; exact List.mem_cons_of_mem x h

theorem le_listMax {l : List Rat} {x : Rat} (h : x ∈ l) : x ≤ listMax l := by
  cases l with
  | nil => simp at h
  | cons y ys =>
    rcases List.mem_cons.mp h with rfl | h'
    · exact le_foldl_max ys x
    · exact foldl_max_le_of_mem y h'

theorem listMax_mem {l : List Rat} (h : l ≠ []) : listMax l ∈ l := by
  cases l with
  | nil => exact absurd rfl h
  | cons y ys =>
    rcases foldl_max_mem ys y with h' | h'
    · rw [listMax, h']; exact List.mem_cons_self y ys
    · exact List.mem_cons_of_mem y h'

theorem mem_bestComs {cnt : List (Int × Rat)} {c : Int} :
    c ∈ bestComs cnt ↔
      ∃ w, (c, w) ∈ cnt ∧ listMax (cnt.map Prod.snd) - w < nearTieTol := by
  constructor
  · intro h
    rcases List.mem_map.mp h with ⟨p, hp, he⟩
    rcases List.mem_filter.mp hp with ⟨hmem, hpred⟩
    refine ⟨p.2, ?_, by simpa using hpred⟩
    rwa [show (c, p.2) = p from Prod.ext he.symm rfl]
  · rintro ⟨w, hmem, hpred⟩
    exact List.mem_map.mpr ⟨(c, w), List.mem_filter.mpr ⟨hmem, by simpa using hpred⟩, rfl⟩

theorem bestComs_ne_nil {cnt : List (Int × Rat)} (h : cnt ≠ []) : bestComs cnt ≠ [] := by
  have hm : listMax (cnt.map Prod.snd) ∈ cnt.map Prod.snd :=
    listMax_mem (by simpa using h)
  rcases List.mem_map.mp hm with ⟨p, hp, he⟩
  have hmem : p.1 ∈ bestComs cnt := by
    apply mem_bestComs.mpr
    refine ⟨p.2, by simpa using hp, ?_⟩
    rw [he]
    simp [nearTieTol]
  intro hnil
  rw [hnil] at hmem
  simp at hmem

theorem argminPair_mem (p : Int × Rat) (l : List (Int × Rat)) :
    argminPair p l ∈ p :: l := by
  induction l generalizing p with
  | nil => simp [argminPair]
  | cons q rest ih =>
    simp only [argminPair]
    by_cases h : q.2 < p.2
    · rw [if_pos h]
      rcases List.mem_cons.mp (ih q) with he | hm
      · rw [he]; simp
      · exact List.mem_cons_of_mem _ (List.mem_cons_of_mem _ hm)
    · rw [if_neg h]
      rcases List.mem_cons.mp (ih p) with he | hm
      · rw [he]; exact List.mem_cons_self _ _
      · exact List.mem_cons_of_mem _ (List.mem_cons_of_mem _ hm)

theorem argminPair_min (p : Int × Rat) (l : List (Int × Rat)) :
    (argminPair p l).2 ≤ p.2 ∧ ∀ q ∈ l, (argminPair p l).2 ≤ q.2 := by
  induction l generalizing p with
  | nil => simp [argminPair]
  | cons q rest ih =>
    simp only [argminPair]
    by_cases h : q.2 < p.2
    · rw [if_pos h]
      obtain ⟨h1, h2⟩ := ih q
      refine ⟨le_trans h1 (le_of_lt h), ?_⟩
      rintro r hr
      rcases List.mem_cons.mp hr with rfl | hm
      · exact h1
      · exact h2 r hm
    · rw [if_neg h]
      obtain ⟨h1, h2⟩ := ih p
      refine ⟨h1, ?_⟩
      rintro r hr
      rcases List.mem_cons.mp hr with rfl | hm
      · exact le_trans h1 (not_lt.mp h)
      · exact h2 r hm

theorem comDensities_ok {md : Rat} {counts : List (Int × Int)} :
    ∀ {best pairs}, comDensities md counts best = .ok pairs →
      pairs.map Prod.fst = best ∧
        ∀ q ∈ pairs, ∃ n : Int, dget counts q.1 = some n ∧ n ≠ 0 ∧ q.2 = md / (n : Rat) := by
  intro best
  induction best with
  | nil =>
    intro pairs h
    simp only [comDensities, Except.ok.injEq] at h
    subst h
    simp
  | cons b rest ih =>
    intro pairs h
    simp only [comDensities] at h
    split at h
    · exact absurd h (by simp)
    · rename_i nb hg
      split at h
      · exact absurd h (by simp)
      · rename_i hz
        split at h
        · exact absurd h (by simp)
        · rename_i l hr
          simp only [Except.ok.injEq] at h
          subst h
          obtain ⟨hmap, hall⟩ := ih hr
          refine ⟨by simp [hmap], ?_⟩
          rintro q hq
          rcases List.mem_cons.mp hq with rfl | hm
          · exact ⟨nb, hg, hz, rfl⟩
          · exact hall q hm

theorem comDensities_total {md : Rat} {counts : List (Int × Int)} :
    ∀ {best}, (∀ b ∈ best, ∃ n : Int, dget counts b = some n ∧ n ≠ 0) →
      ∃ pairs, comDensities md counts best = .ok pairs := by
  intro best
  induction best with
  | nil => intro _; exact ⟨[], rfl⟩
  | cons b rest ih =>
    intro h
    obtain ⟨n, hn, hz⟩ := h b (List.mem_cons_self b rest)
    obtain ⟨pairs, hp⟩ := ih (fun b' hb' => h b' (List.mem_cons_of_mem b hb'))
    refine ⟨(b, md / (n : Rat)) :: pairs, ?_⟩
    simp only [comDensities, hn, hp, if_neg hz]

/-! ## Per-vertex update branch lemmas -/

theorem updateVertex_empty {G : Graph} {md : Rat} {s : EngState} {vertex : Nat} {cont : Bool}
    (h : buildCounter G s vertex = []) :
    updateVertex G md s vertex cont = .ok (s, cont) := by
  rw [updateVertex]
  simp [h]

theorem updateVertex_keep {G : Graph} {md : Rat} {s : EngState} {vertex : Nat} {cont : Bool}
    {c : Int} (hd : dget s.communities vertex = some c)
    (hb : c ∈ bestComs (buildCounter G s vertex)) (hne : c ≠ -1) :
    updateVertex G md s vertex cont = .ok (s, cont) := by
  have hcnt : buildCounter G s vertex ≠ [] := by
    intro h0
    rw [h0] at hb
    simp [bestComs] at hb
  have hemp : (buildCounter G s vertex).isEmpty = false := List.isEmpty_eq_false.mpr hcnt
  have hcon : ((bestComs (buildCounter G s vertex)).contains c) = true :=
    List.elem_iff.mpr hb
  rw [updateVertex]
  simp only [hemp, Bool.false_eq_true, if_false, hd, hcon, if_true]
  rw [if_pos hne]

/-- Complete case analysis of a successful `applyRelabel`: either the
departed-community update was skipped by the caught `KeyError` (vertex
unlabeled, or its community missing from the count dict), or count and
density of the departed community were decremented/recomputed; then the
vertex was relabeled and the adopted community's count and density updated. -/
theorem applyRelabel_ok {md : Rat} {s : EngState} {vertex : Nat} {new_com : Int}
    {s' : EngState} {cont' : Bool}
    (h : applyRelabel md s vertex new_com = .ok (s', cont')) :
    cont' = true ∧
    ∃ s1 : EngState,
      (((dget s.communities vertex = none ∨
          ∃ old, dget s.communities vertex = some old ∧
            dget s.com_to_numvertices old = none) ∧ s1 = s) ∨
        ∃ old nOld, dget s.communities vertex = some old ∧
          dget s.com_to_numvertices old = some nOld ∧ nOld - 1 ≠ 0 ∧
          s1 = { s with
            com_to_numvertices := dset s.com_to_numvertices old (nOld - 1),
            density := dset s.density old (md / ((nOld - 1 : Int) : Rat)) }) ∧
      ∃ m : Int, dget s1.com_to_numvertices new_com = some m ∧ m + 1 ≠ 0 ∧
        s' = { communities := dset s1.communities vertex new_com,
               density := dset s1.density new_com (md / ((m + 1 : Int) : Rat)),
               com_to_numvertices := dset s1.com_to_numvertices new_com (m + 1) } := by
  simp only [applyRelabel] at h
  split at h
  · exact absurd h (by simp)
  · rename_i s1 heq
    split at h
    · exact absurd h (by simp)
    · rename_i m hm
      split at h
      · exact absurd h (by simp)
      · rename_i hmz
        simp only [Except.ok.injEq, Prod.mk.injEq] at h
        obtain ⟨hs', hcont'⟩ := h
        refine ⟨hcont'.symm, s1, ?_, m, hm, hmz, hs'.symm⟩
        split at heq
        · rename_i hnone
          simp only [Except.ok.injEq] at heq
          exact Or.inl ⟨Or.inl hnone, heq.symm⟩
        · rename_i old hold
          split at heq
          · rename_i hcnone
            simp only [Except.ok.injEq] at heq
            exact Or.inl ⟨Or.inr ⟨old, hold, hcnone⟩, heq.symm⟩
          · rename_i nOld hcsome
            split at heq
            · exact absurd heq (by simp)
            · rename_i hnz
              simp only [Except.ok.injEq] at heq
              exact Or.inr ⟨old, nOld, hold, hcsome, hnz, heq.symm⟩

/-- `applyRelabel` succeeds whenever the adopted community's count is present
and positive and any departed community's count is at least 2. -/
theorem applyRelabel_total {md : Rat} {s : EngState} {vertex : Nat} {new_com : Int}
    (hnew : ∃ n : Int, dget s.com_to_numvertices new_com = some n ∧ 0 < n)
    (hdep : ∀ old n, dget s.communities vertex = some old →
      dget s.com_to_numvertices old = some n → 2 ≤ n) :
    ∃ s', applyRelabel md s vertex new_com = .ok (s', true) := by
  obtain ⟨n, hn, hpos⟩ := hnew
  rcases hold : dget s.communities vertex with _ | old
  · -- vertex unlabeled: no decrement, count of new_com unchanged
    refine ⟨?_, ?_⟩
    rotate_left
    · simp only [applyRelabel, hold, hn, if_neg (by omega : ¬ n + 1 = 0)]
      exact rfl
  · rcases hcold : dget s.com_to_numvertices old with _ | nOld
    · refine ⟨?_, ?_⟩
      rotate_left
      · simp only [applyRelabel, hold, hcold, hn, if_neg (by omega : ¬ n + 1 = 0)]
        exact rfl
    · have h2 : 2 ≤ nOld := hdep old nOld hold hcold
      by_cases he : old = new_com
      · subst he
        have hget : dget (dset s.com_to_numvertices old (nOld - 1)) old
            = some (nOld - 1) := dget_dset_self _ _ _
        refine ⟨?_, ?_⟩
        rotate_left
        · simp only [applyRelabel, hold, hcold, if_neg (by omega : ¬ nOld - 1 = 0), hget,
            if_neg (by omega : ¬ nOld - 1 + 1 = 0)]
          exact rfl
      · have hget : dget (dset s.com_to_numvertices old (nOld - 1)) new_com
            = some n := by
          rw [dget_dset_ne _ _ (fun hh => he hh.symm)]
          exact hn
        refine ⟨?_, ?_⟩
        rotate_left
        · simp only [applyRelabel, hold, hcold, if_neg (by omega : ¬ nOld - 1 = 0), hget,
            if_neg (by omega : ¬ n + 1 = 0)]
          exact rfl

theorem applyRelabel_communities {md : Rat} {s : EngState} {vertex : Nat} {new_com : Int}
    {s' : EngState} {cont' : Bool}
    (h : applyRelabel md s vertex new_com = .ok (s', cont')) :
    cont' = true ∧ s'.communities = dset s.communities vertex new_com := by
  obtain ⟨hc, s1, h1, m, _, _, hs'⟩ := applyRelabel_ok h
  have hcomm : s1.communities = s.communities := by
    rcases h1 with ⟨_, rfl⟩ | ⟨old, nOld, _, _, _, rfl⟩ <;> rfl
  refine ⟨hc, ?_⟩
  rw [hs']
  simp [hcomm]

theorem updateVertex_change_core {G : Graph} {md : Rat} {s : EngState} {vertex : Nat}
    {cont : Bool} {s' : EngState} {cont' : Bool}
    (hnk : ∀ c, dget s.communities vertex = some c →
      c ∉ bestComs (buildCounter G s vertex))
    (hcnt : buildCounter G s vertex ≠ [])
    (hok : updateVertex G md s vertex cont = .ok (s', cont')) :
    cont' = true ∧ ∃ new_com, new_com ∈ bestComs (buildCounter G s vertex) ∧
      dget s'.communities vertex = some new_com ∧
      ((bestComs (buildCounter G s vertex)).length ≤ 1 →
        bestComs (buildCounter G s vertex) = [new_com]) ∧
      (1 < (bestComs (buildCounter G s vertex)).length →
        ∃ p rest, comDensities md s.com_to_numvertices (bestComs (buildCounter G s vertex))
            = .ok (p :: rest) ∧ new_com = (argminPair p rest).1) := by
  have hemp : (buildCounter G s vertex).isEmpty = false := List.isEmpty_eq_false.mpr hcnt
  have hnc1 : (match dget s.communities vertex with
      | some c => if (bestComs (buildCounter G s vertex)).contains c then c else (-1 : Int)
      | none => (-1 : Int)) = -1 := by
    rcases hd : dget s.communities vertex with _ | c
    · rfl
    · have hcon : ((bestComs (buildCounter G s vertex)).contains c) = false := by
        rw [← Bool.not_eq_true, List.elem_iff]
        exact hnk c hd
      simp only [hcon]
      simp
  rw [updateVertex] at hok
  simp only [hemp, Bool.false_eq_true, if_false, hnc1, ne_eq, not_true_eq_false] at hok
  -- `hok` is now the change branch; analyse the community pick
  by_cases hlen : 1 < (bestComs (buildCounter G s vertex)).length
  · rw [if_pos hlen] at hok
    rcases hcd : comDensities md s.com_to_numvertices (bestComs (buildCounter G s vertex))
      with e | pairs
    · rw [hcd] at hok
      exact absurd hok (by simp)
    · rw [hcd] at hok
      cases pairs with
      | nil => exact absurd hok (by simp)
      | cons p rest =>
        obtain ⟨hcont, hcomm⟩ := applyRelabel_communities hok
        refine ⟨hcont, (argminPair p rest).1, ?_, ?_, ?_, ?_⟩
        · obtain ⟨hmap, _⟩ := comDensities_ok hcd
          rw [← hmap]
          exact List.mem_map.mpr ⟨argminPair p rest, argminPair_mem p rest, rfl⟩
        · rw [hcomm]
          exact dget_dset_self _ _ _
        · intro hle
          omega
        · intro _
          exact ⟨p, rest, rfl, rfl⟩
  · rw [if_neg hlen] at hok
    rcases hbest : bestComs (buildCounter G s vertex) with _ | ⟨b, bs⟩
    · exact absurd hbest (bestComs_ne_nil hcnt)
    · rw [hbest] at hok
      have hbs : bs = [] := by
        rw [hbest] at hlen
        cases bs with
        | nil => rfl
        | cons x xs => simp at hlen
      subst hbs
      obtain ⟨hcont, hcomm⟩ := applyRelabel_communities hok
      refine ⟨hcont, b, List.mem_cons_self b [], ?_, fun _ => rfl,
        fun hgt => by simp at hgt⟩
      rw [hcomm]
      exact dget_dset_self _ _ _

/-! ## C1: the per-vertex update rule -/

/-- **C1**: for every vertex considered with a non-empty accumulated vote:
the candidate set is every community whose accumulated vote is strictly
within 0.0001 of the maximum vote; a current label in the candidate set is
kept unchanged; a unique remaining candidate is adopted; otherwise the
adopted candidate has minimal density `max_density / count`, equivalently
maximal current member count, among the candidates. -/
theorem C1_per_vertex_update_rule (G : Graph) (md : Rat) (s : EngState) (vertex : Nat)
    (cont : Bool) (hcnt : buildCounter G s vertex ≠ []) :
    (∀ c : Int, c ∈ bestComs (buildCounter G s vertex) ↔
      ∃ w, (c, w) ∈ buildCounter G s vertex ∧
        listMax ((buildCounter G s vertex).map Prod.snd) - w < nearTieTol) ∧
    (∀ c : Int, dget s.communities vertex = some c → 0 ≤ c →
      c ∈ bestComs (buildCounter G s vertex) →
      updateVertex G md s vertex cont = .ok (s, cont)) ∧
    (∀ b : Int, bestComs (buildCounter G s vertex) = [b] →
      (∀ c, dget s.communities vertex = some c → c ∉ bestComs (buildCounter G s vertex)) →
      ∀ s' cont', updateVertex G md s vertex cont = .ok (s', cont') →
        dget s'.communities vertex = some b ∧ cont' = true) ∧
    (0 < md →
      (∀ c, dget s.communities vertex = some c → c ∉ bestComs (buildCounter G s vertex)) →
      ∀ s' cont', updateVertex G md s vertex cont = .ok (s', cont') →
        ∃ chosen ∈ bestComs (buildCounter G s vertex),
          dget s'.communities vertex = some chosen ∧ cont' = true ∧
          ∀ b ∈ bestComs (buildCounter G s vertex), ∀ nb nc : Int,
            dget s.com_to_numvertices b = some nb →
            dget s.com_to_numvertices chosen = some nc →
            md / (nc : Rat) ≤ md / (nb : Rat) ∧ (0 < nb → 0 < nc → nb ≤ nc)) := by
  refine ⟨fun c => mem_bestComs, ?_, ?_, ?_⟩
  · intro c hd h0 hb
    exact updateVertex_keep hd hb (by omega)
  · intro b hbest hnk s' cont' hok
    obtain ⟨hcont, new_com, _, hdg, hone, _⟩ := updateVertex_change_core hnk hcnt hok
    have : bestComs (buildCounter G s vertex) = [new_com] := hone (by rw [hbest]; simp)
    rw [hbest] at this
    obtain rfl : b = new_com := by simpa using this
    exact ⟨hdg, hcont⟩
  · intro hmd hnk s' cont' hok
    obtain ⟨hcont, chosen, hmem, hdg, hone, hmany⟩ := updateVertex_change_core hnk hcnt hok
    refine ⟨chosen, hmem, hdg, hcont, ?_⟩
    intro b hb nb nc hnb hnc
    have key : md / (nc : Rat) ≤ md / (nb : Rat) := by
      by_cases hlen : 1 < (bestComs (buildCounter G s vertex)).length
      · obtain ⟨p, rest, hcd, hch⟩ := hmany hlen
        obtain ⟨hmap, hall⟩ := comDensities_ok hcd
        -- locate the pairs for `b` and for `chosen`
        have hbp : ∃ q ∈ p :: rest, q.1 = b := by
          rw [← hmap] at hb
          rcases List.mem_map.mp hb with ⟨q, hq, he⟩
          exact ⟨q, hq, he⟩
        obtain ⟨q, hq, rfl⟩ := hbp
        obtain ⟨n, hn, _, hval⟩ := hall q hq
        rw [hnb] at hn
        obtain rfl : n = nb := by simpa using hn.symm
        have hcpair := argminPair_mem p rest
        obtain ⟨n', hn', _, hval'⟩ := hall (argminPair p rest) hcpair
        rw [hch] at hnc
        rw [hnc] at hn'
        obtain rfl : n' = nc := by simpa using hn'.symm
        have hminle : (argminPair p rest).2 ≤ q.2 := by
          obtain ⟨h1, h2⟩ := argminPair_min p rest
          rcases List.mem_cons.mp hq with rfl | hqr
          · exact h1
          · exact h2 q hqr
        rw [hval, hval'] at hminle
        exact hminle
      · have hsing : bestComs (buildCounter G s vertex) = [chosen] := hone (by omega)
        rw [hsing] at hb
        obtain rfl : b = chosen := by simpa using hb
        rw [hnb] at hnc
        obtain rfl : nb = nc := by simpa using hnc
        exact le_refl _
    refine ⟨key, ?_⟩
    intro hpb hpc
    have hb' : (0 : Rat) < (nb : Rat) := by exact_mod_cast hpb
    have hc' : (0 : Rat) < (nc : Rat) := by exact_mod_cast hpc
    have : md * (nb : Rat) ≤ md * (nc : Rat) := by
      rw [div_le_div_iff hc' hb'] at key
      exact key
    have hle : (nb : Rat) ≤ (nc : Rat) := le_of_mul_le_mul_left this hmd
    exact_mod_cast hle

/-- Witness for C1 at a concrete input: on the 4-cycle with seeds
`{0 ↦ 0, 1 ↦ 1}`, vertex 0's vote counter is non-empty, its current label 0
is among the candidates, and the update keeps state and label unchanged. -/
theorem C1_witness :
    updateVertex ringG 1 ⟨[(0, 0), (1, 1)], [(0, 1), (1, 1)], [(0, 1), (1, 1)]⟩ 0 false
      = .ok (⟨[(0, 0), (1, 1)], [(0, 1), (1, 1)], [(0, 1), (1, 1)]⟩, false) := by
  have hcnt : buildCounter ringG ⟨[(0, 0), (1, 1)], [(0, 1), (1, 1)], [(0, 1), (1, 1)]⟩ 0 ≠ [] := by
    norm_num [buildCounter, cupd, dget, dset, ringG]
    exact List.cons_ne_nil _ _
  have hd : dget (⟨[(0, 0), (1, 1)], [(0, 1), (1, 1)], [(0, 1), (1, 1)]⟩ : EngState).communities 0
      = some 0 := by
    norm_num [dget]
  have hb : (0 : Int) ∈ bestComs (buildCounter ringG
      ⟨[(0, 0), (1, 1)], [(0, 1), (1, 1)], [(0, 1), (1, 1)]⟩ 0) := by
    norm_num [buildCounter, cupd, dget, dset, ringG, bestComs, listMax, nearTieTol]
  exact (C1_per_vertex_update_rule ringG 1 _ 0 false hcnt).2.1 0 hd (by omega) hb

/-! ## C2: density/count consistency -/

theorem DensityInv_dset {md : Rat} {density : List (Int × Rat)} {counts : List (Int × Int)}
    (h : DensityInv md density counts) (c : Int) (n : Int) :
    DensityInv md (dset density c (md / (n : Rat))) (dset counts c n) := by
  intro c' n' hg hpos
  by_cases he : c' = c
  · subst he
    rw [dget_dset_self] at hg
    obtain rfl : n = n' := by simpa using hg
    rw [dget_dset_self]
  · rw [dget_dset_ne _ _ he] at hg
    rw [dget_dset_ne _ _ he]
    exact h c' n' hg hpos

theorem densityInv_applyRelabel {md : Rat} {s : EngState} {vertex : Nat} {new_com : Int}
    {s' : EngState} {cont' : Bool}
    (hok : applyRelabel md s vertex new_com = .ok (s', cont'))
    (h : DensityInv md s.density s.com_to_numvertices) :
    DensityInv md s'.density s'.com_to_numvertices := by
  obtain ⟨_, s1, h1, m, _, _, hs'⟩ := applyRelabel_ok hok
  have hinv1 : DensityInv md s1.density s1.com_to_numvertices := by
    rcases h1 with ⟨_, rfl⟩ | ⟨old, nOld, _, _, _, rfl⟩
    · exact h
    · exact DensityInv_dset h old (nOld - 1)
  rw [hs']
  exact DensityInv_dset hinv1 new_com (m + 1)

/-- A successful `updateVertex` either leaves the state untouched (empty
counter, or current label kept) or is a successful `applyRelabel` for some
adopted community. -/
theorem updateVertex_ok_cases {G : Graph} {md : Rat} {s : EngState} {vertex : Nat}
    {cont : Bool} {s' : EngState} {cont' : Bool}
    (hok : updateVertex G md s vertex cont = .ok (s', cont')) :
    (s' = s ∧ cont' = cont) ∨
      ∃ new_com, applyRelabel md s vertex new_com = .ok (s', cont') := by
  simp only [updateVertex] at hok
  repeat' split at hok
  all_goals
    first
      | exact Except.noConfusion hok
      | (have hp := Except.ok.inj hok
         exact Or.inl ⟨(congrArg Prod.fst hp).symm, (congrArg Prod.snd hp).symm⟩)
      | exact Or.inr ⟨_, hok⟩

theorem densityInv_updateVertex {G : Graph} {md : Rat} {s : EngState} {vertex : Nat}
    {cont : Bool} {s' : EngState} {cont' : Bool}
    (hok : updateVertex G md s vertex cont = .ok (s', cont'))
    (h : DensityInv md s.density s.com_to_numvertices) :
    DensityInv md s'.density s'.com_to_numvertices := by
  rcases updateVertex_ok_cases hok with ⟨rfl, _⟩ | ⟨new_com, hrel⟩
  · exact h
  · exact densityInv_applyRelabel hrel h

theorem densityInv_runPass {G : Graph} {md : Rat} :
    ∀ (vertices : List Nat) (s : EngState) (cont : Bool) (s' : EngState) (cont' : Bool),
      runPass G md vertices s cont = .ok (s', cont') →
      DensityInv md s.density s.com_to_numvertices →
      DensityInv md s'.density s'.com_to_numvertices := by
  intro vertices
  induction vertices with
  | nil =>
    intro s cont s' cont' hok h
    obtain ⟨rfl, _⟩ : s = s' ∧ cont = cont' := by simpa [runPass] using hok
    exact h
  | cons v rest ih =>
    intro s cont s' cont' hok h
    rw [runPass] at hok
    split at hok
    · exact absurd hok (by simp)
    · rename_i s1 cont1 heq
      exact ih s1 cont1 s' cont' hok (densityInv_updateVertex heq h)

theorem densityInv_engineLoop {G : Graph} {md : Rat} {vertices : List Nat} :
    ∀ (fuel ic mi : Nat) (s s' : EngState) (passes : Nat), mi + 1 - ic ≤ fuel →
      engineLoop G md vertices s ic mi = .ok (s', passes) →
      DensityInv md s.density s.com_to_numvertices →
      DensityInv md s'.density s'.com_to_numvertices := by
  intro fuel
  induction fuel with
  | zero =>
    intro ic mi s s' passes hf hok h
    rw [engineLoop] at hok
    split at hok
    · exact absurd hok (by simp)
    · rename_i s1 cont1 heq
      have hlt : mi < ic + 1 := by omega
      rw [dif_pos hlt] at hok
      obtain ⟨he, _⟩ : s1 = s' ∧ ic + 1 = passes := by simpa using hok
      rw [← he]
      exact densityInv_runPass vertices s false s1 cont1 heq h
  | succ fuel ih =>
    intro ic mi s s' passes hf hok h
    rw [engineLoop] at hok
    split at hok
    · exact absurd hok (by simp)
    · rename_i s1 cont1 heq
      have hinv1 := densityInv_runPass vertices s false s1 cont1 heq h
      by_cases hlt : mi < ic + 1
      · rw [dif_pos hlt] at hok
        obtain ⟨rfl, _⟩ : s1 = s' ∧ ic + 1 = passes := by simpa using hok
        exact hinv1
      · rw [dif_neg hlt] at hok
        by_cases hcont : cont1 = true
        · rw [if_pos hcont] at hok
          exact ih (ic + 1) mi s1 s' passes (by omega) hok hinv1
        · rw [if_neg hcont] at hok
          obtain ⟨rfl, _⟩ : s1 = s' ∧ ic + 1 = passes := by simpa using hok
          exact hinv1

theorem densityInv_fluidc_modified {G : Graph} {md : Rat} {vertices : List Nat}
    {communities : List (Nat × Int)} {density : List (Int × Rat)}
    {counts : List (Int × Int)} {mi : Nat} {groups : List (List Nat)}
    {s' : EngState} {passes : Nat}
    (hok : fluidc_modified G vertices communities density md counts mi
      = .ok (groups, s', passes))
    (h : DensityInv md density counts) :
    DensityInv md s'.density s'.com_to_numvertices := by
  rw [fluidc_modified] at hok
  split at hok
  · exact absurd hok (by simp)
  · rename_i s1 passes1 heq
    obtain ⟨_, he, _⟩ : (invert_dict s1.communities).map Prod.snd = groups ∧ s1 = s' ∧
        passes1 = passes := by simpa using hok
    rw [← he]
    exact densityInv_engineLoop (mi + 1) 0 mi _ s1 passes1 (by omega) heq h

theorem densityInv_seedInit {md : Rat} :
    ∀ (seed : List (Nat × Int)) (density : List (Int × Rat)) (counts : List (Int × Int)),
      DensityInv md density counts →
      DensityInv md (seedInit md seed density counts).1 (seedInit md seed density counts).2 := by
  intro seed
  induction seed with
  | nil => intro density counts h; exact h
  | cons p rest ih =>
    intro density counts h
    have hstep : DensityInv md (dset density p.2 md) (dset counts p.2 1) := by
      have := DensityInv_dset h p.2 1
      have hone : md / ((1 : Int) : Rat) = md := by norm_num
      rwa [hone] at this
    have : seedInit md (p :: rest) density counts
        = seedInit md rest (dset density p.2 md) (dset counts p.2 1) := by
      simp [seedInit]
    rw [this]
    exact ih _ _ hstep

/-- **C2**: the density/count consistency invariant. Per-restart seed
initialization preserves (and on seeded communities establishes) the
invariant `density(c) = max_density / count(c)` for positive counts; every
single label-change bookkeeping update preserves it; hence a whole engine
invocation preserves it, so it holds at every point of every run that starts
from a consistent state. -/
theorem C2_density_count_consistency (md : Rat) :
    (∀ (seed : List (Nat × Int)) (density : List (Int × Rat)) (counts : List (Int × Int)),
      DensityInv md density counts →
      DensityInv md (seedInit md seed density counts).1 (seedInit md seed density counts).2) ∧
    (∀ (G : Graph) (s : EngState) (vertex : Nat) (cont : Bool) (s' : EngState) (cont' : Bool),
      updateVertex G md s vertex cont = .ok (s', cont') →
      DensityInv md s.density s.com_to_numvertices →
      DensityInv md s'.density s'.com_to_numvertices) ∧
    (∀ (G : Graph) (vertices : List Nat) (communities : List (Nat × Int))
        (density : List (Int × Rat)) (counts : List (Int × Int)) (mi : Nat)
        (groups : List (List Nat)) (s' : EngState) (passes : Nat),
      fluidc_modified G vertices communities density md counts mi = .ok (groups, s', passes) →
      DensityInv md density counts →
      DensityInv md s'.density s'.com_to_numvertices) :=
  ⟨densityInv_seedInit,
   fun _ _ _ _ _ _ hok h => densityInv_updateVertex hok h,
   fun _ _ _ _ _ _ _ _ _ hok h => densityInv_fluidc_modified hok h⟩

/-- Concrete engine run shared by several witnesses: on the 4-cycle with
seeds `{0 ↦ 0, 1 ↦ 1}` and `max_iter = 1`, the engine needs a second pass
(the first changes vertices 2 and 3), converges to `[[0,3],[1,2]]` and has
executed 2 passes when it stops. -/
theorem ringPassA :
    runPass ringG 1 [0, 1, 2, 3] ⟨[(0, 0), (1, 1)], [(0, 1), (1, 1)], [(0, 1), (1, 1)]⟩ false
      = .ok (⟨[(0, 0), (1, 1), (2, 1), (3, 0)], [(0, 1/2), (1, 1/2)], [(0, 2), (1, 2)]⟩,
        true) := by
  norm_num [runPass, updateVertex, applyRelabel, buildCounter, cupd, dget, dset,
    bestComs, listMax, nearTieTol, comDensities, argminPair, ringG, Graph.adj,
    -Prod.mk_zero_zero, -Prod.mk_one_one]

/-- The converged state of the 4-cycle run is a fixpoint: a further pass
changes nothing and leaves `cont = false`. -/
theorem ringPassB :
    runPass ringG 1 [0, 1, 2, 3]
      ⟨[(0, 0), (1, 1), (2, 1), (3, 0)], [(0, 1/2), (1, 1/2)], [(0, 2), (1, 2)]⟩ false
      = .ok (⟨[(0, 0), (1, 1), (2, 1), (3, 0)], [(0, 1/2), (1, 1/2)], [(0, 2), (1, 2)]⟩,
        false) := by
  norm_num [runPass, updateVertex, applyRelabel, buildCounter, cupd, dget, dset,
    bestComs, listMax, nearTieTol, comDensities, argminPair, ringG, Graph.adj,
    -Prod.mk_zero_zero, -Prod.mk_one_one]

theorem ringEngineRun :
    fluidc_modified ringG [0, 1, 2, 3] [(0, 0), (1, 1)] [(0, 1), (1, 1)] 1 [(0, 1), (1, 1)] 1
      = .ok ([[0, 3], [1, 2]],
        ⟨[(0, 0), (1, 1), (2, 1), (3, 0)], [(0, 1/2), (1, 1/2)], [(0, 2), (1, 2)]⟩, 2) := by
  rw [fluidc_modified, engineLoop, ringPassA]
  norm_num [-Prod.mk_zero_zero, -Prod.mk_one_one]
  rw [engineLoop, ringPassB]
  norm_num [invert_dict, dget, dset, -Prod.mk_zero_zero, -Prod.mk_one_one]

/-- Witness for C2: the invariant holds on the seed bookkeeping of the
4-cycle run and, by the claim theorem applied to the concrete engine run, on
the final bookkeeping (counts 2 and densities 1/2 on both communities). -/
theorem C2_witness : DensityInv 1 [(0, 1/2), (1, 1/2)] [(0, 2), (1, 2)] := by
  have hinv0 : DensityInv 1 [(0, 1), (1, 1)] [(0, 1), (1, 1)] := by
    intro c n hg hpos
    by_cases h0 : (0 : Int) = c
    · subst h0
      simp only [dget, if_pos rfl] at hg ⊢
      obtain rfl : (1 : Int) = n := by simpa using hg
      norm_num
    · by_cases h1 : (1 : Int) = c
      · subst h1
        simp only [dget, if_neg h0, if_pos rfl] at hg ⊢
        obtain rfl : (1 : Int) = n := by simpa using hg
        norm_num
      · simp [dget, h0, h1] at hg
  exact (C2_density_count_consistency 1).2.2 ringG [0, 1, 2, 3] [(0, 0), (1, 1)]
    [(0, 1), (1, 1)] [(0, 1), (1, 1)] 1 [[0, 3], [1, 2]]
    ⟨[(0, 0), (1, 1), (2, 1), (3, 0)], [(0, 1/2), (1, 1/2)], [(0, 2), (1, 2)]⟩ 2
    ringEngineRun hinv0

/-! ## C3: convergence and the pass cap -/

theorem engineLoop_stable {G : Graph} {md : Rat} {vertices : List Nat} {s s1 : EngState}
    (ic mi : Nat) (hstable : runPass G md vertices s false = .ok (s1, false)) :
    engineLoop G md vertices s ic mi = .ok (s1, ic + 1) := by
  rw [engineLoop, hstable]
  by_cases h : mi < ic + 1 <;> simp [h]

theorem engineLoop_passes_le {G : Graph} {md : Rat} {vertices : List Nat} {mi : Nat} :
    ∀ (fuel ic : Nat) (s s' : EngState) (n : Nat), mi + 1 - ic ≤ fuel → ic ≤ mi →
      engineLoop G md vertices s ic mi = .ok (s', n) → n ≤ mi + 1 := by
  intro fuel
  induction fuel with
  | zero => intro ic s s' n hf hic _; omega
  | succ fuel ih =>
    intro ic s s' n hf hic hok
    rw [engineLoop] at hok
    split at hok
    · exact absurd hok (by simp)
    · rename_i s1 cont1 heq
      by_cases hlt : mi < ic + 1
      · rw [dif_pos hlt] at hok
        obtain ⟨_, hn⟩ : s1 = s' ∧ ic + 1 = n := by simpa using hok
        omega
      · rw [dif_neg hlt] at hok
        by_cases hcont : cont1 = true
        · rw [if_pos hcont] at hok
          exact ih (ic + 1) s1 s' n (by omega) (by omega) hok
        · rw [if_neg hcont] at hok
          obtain ⟨_, hn⟩ : s1 = s' ∧ ic + 1 = n := by simpa using hok
          omega

/-- **C3 (amended)**: the engine stops and returns as soon as a pass changes
no vertex's label; otherwise it keeps running full passes and stops
unconditionally after the pass that takes the pass count past
`maxIterations`, so the number of passes executed is at most
`maxIterations + 1` (the cap check happens after the increment, one pass
later than the claim states). -/
theorem C3_convergence_and_pass_cap (G : Graph) (md : Rat) (vertices : List Nat) :
    (∀ (s s1 : EngState) (ic mi : Nat),
      runPass G md vertices s false = .ok (s1, false) →
      engineLoop G md vertices s ic mi = .ok (s1, ic + 1)) ∧
    (∀ (s : EngState) (mi : Nat) (groups : List (List Nat)) (s' : EngState) (passes : Nat),
      fluidc_modified G vertices s.communities s.density md s.com_to_numvertices mi
        = .ok (groups, s', passes) → passes ≤ mi + 1) := by
  constructor
  · intro s s1 ic mi hstable
    exact engineLoop_stable ic mi hstable
  · intro s mi groups s' passes hok
    rw [fluidc_modified] at hok
    split at hok
    · exact absurd hok (by simp)
    · rename_i s1 passes1 heq
      obtain ⟨_, _, hp⟩ : (invert_dict s1.communities).map Prod.snd = groups ∧ s1 = s' ∧
          passes1 = passes := by simpa using hok
      rw [← hp]
      exact engineLoop_passes_le (mi + 1) 0 _ s1 passes1 (by omega) (by omega) heq

/-- Counterexample to C3 as stated: on the 4-cycle with `maxIterations = 1`
the engine executes 2 passes — more than `maxIterations` — because the cap
test `iter_count > max_iter` runs only after the pass counter has been
incremented and the pass run. -/
theorem C3_counterexample :
    fluidc_modified ringG [0, 1, 2, 3] [(0, 0), (1, 1)] [(0, 1), (1, 1)] 1 [(0, 1), (1, 1)] 1
      = .ok ([[0, 3], [1, 2]],
        ⟨[(0, 0), (1, 1), (2, 1), (3, 0)], [(0, 1/2), (1, 1/2)], [(0, 2), (1, 2)]⟩, 2) ∧
    ¬ (2 ≤ 1) :=
  ⟨ringEngineRun, by omega⟩

/-- Witness for C3: the stable converged state of the 4-cycle run makes the
engine loop stop after exactly one further pass. -/
theorem C3_witness :
    engineLoop ringG 1 [0, 1, 2, 3]
      ⟨[(0, 0), (1, 1), (2, 1), (3, 0)], [(0, 1/2), (1, 1/2)], [(0, 2), (1, 2)]⟩ 0 5
      = .ok (⟨[(0, 0), (1, 1), (2, 1), (3, 0)], [(0, 1/2), (1, 1/2)], [(0, 2), (1, 2)]⟩, 1) :=
  (C3_convergence_and_pass_cap ringG 1 [0, 1, 2, 3]).1 _ _ 0 5 ringPassB

/-! ## C4: the engine's output grouping -/

theorem firstLabelsEx_not_mem_seen :
    ∀ (d : List (Nat × Int)) (seen : List Int) (c : Int),
      c ∈ firstLabelsEx seen d → c ∉ seen := by
  intro d
  induction d with
  | nil => intro seen c h; simp [firstLabelsEx] at h
  | cons p rest ih =>
    intro seen c h
    rw [firstLabelsEx] at h
    by_cases hc : seen.contains p.2
    · rw [if_pos hc] at h
      exact ih seen c h
    · rw [if_neg hc] at h
      rcases List.mem_cons.mp h with rfl | hm
      · intro hmem
        exact hc (List.elem_iff.mpr hmem)
      · intro hmem
        exact ih (seen ++ [p.2]) c hm (by simp [hmem])

theorem map_dset_append {k : Int} {l : List Nat} :
    ∀ (acc : List (Int × List Nat)) (x : Nat) (g : Int → List Nat),
      dget acc k = some l → (keys acc).Nodup →
      (dset acc k (l ++ [x])).map (fun q => (q.1, q.2 ++ g q.1))
        = acc.map (fun q => (q.1, q.2 ++ (if q.1 = k then x :: g k else g q.1))) := by
  intro acc
  induction acc with
  | nil => intro x g h _; simp [dget] at h
  | cons q rest ih =>
    intro x g h hnd
    simp only [keys, List.map_cons, List.nodup_cons] at hnd
    by_cases hq : q.1 = k
    · have hl : q.2 = l := by simpa [dget, hq] using h
      subst hl
      have hd : dset (q :: rest) k (q.2 ++ [x]) = (k, q.2 ++ [x]) :: rest := by
        simp [dset, hq]
      rw [hd]
      simp only [List.map_cons]
      congr 1
      · simp [hq, List.append_assoc]
      · apply List.map_eq_map_iff.mpr
        intro r hr
        have hrk : ¬ r.1 = k := by
          intro he
          refine hnd.1 ?_
          rw [hq, ← he]
          exact List.mem_map.mpr ⟨r, hr, rfl⟩
        simp [hrk]
    · have hrest : dget rest k = some l := by simpa [dget, hq] using h
      have hd : dset (q :: rest) k (l ++ [x]) = q :: dset rest k (l ++ [x]) := by
        simp [dset, hq]
      rw [hd]
      simp only [List.map_cons]
      congr 1
      · simp [hq]
      · exact ih x g hrest hnd.2

theorem invert_foldl :
    ∀ (d : List (Nat × Int)) (acc : List (Int × List Nat)), (keys acc).Nodup →
      (d.foldl (fun acc p =>
        match dget acc p.2 with
        | some l => dset acc p.2 (l ++ [p.1])
        | none => acc ++ [(p.2, [p.1])]) acc)
        = acc.map (fun q => (q.1, q.2 ++ (d.filter (fun p => p.2 = q.1)).map Prod.fst))
          ++ (firstLabelsEx (keys acc) d).map
              (fun c => (c, (d.filter (fun p => p.2 = c)).map Prod.fst)) := by
  intro d
  induction d with
  | nil =>
    intro acc _
    simp [firstLabelsEx]
  | cons p rest ih =>
    intro acc hnd
    rw [List.foldl_cons]
    rcases hg : dget acc p.2 with _ | l
    · -- new label: appended to the accumulator
      have hmem : p.2 ∉ keys acc := (dget_eq_none_iff acc p.2).mp hg
      have hnd' : (keys (acc ++ [(p.2, [p.1])])).Nodup := by
        simp only [keys, List.map_append, List.map_cons, List.map_nil]
        rw [List.nodup_append]
        refine ⟨hnd, by simp, ?_⟩
        intro a ha
        simp only [List.mem_singleton]
        intro he
        exact hmem (by rw [← he]; exact ha)
      simp only []
      rw [ih (acc ++ [(p.2, [p.1])]) hnd']
      have hkeys : keys (acc ++ [(p.2, [p.1])]) = keys acc ++ [p.2] := by
        simp [keys]
      rw [hkeys]
      have hfl : firstLabelsEx (keys acc) (p :: rest)
          = p.2 :: firstLabelsEx (keys acc ++ [p.2]) rest := by
        rw [firstLabelsEx]
        rw [if_neg (fun hc => hmem (List.elem_iff.mp hc))]
      rw [hfl]
      simp only [List.map_append, List.map_cons, List.map_nil, List.append_assoc,
        List.nil_append, List.cons_append, List.map_cons]
      congr 1
      · -- accumulator entries: keys differ from p.2
        apply List.map_eq_map_iff.mpr
        intro q hq
        have hqk : ¬ p.2 = q.1 := by
          intro he
          exact hmem (by rw [he]; exact List.mem_map.mpr ⟨q, hq, rfl⟩)
        simp only [List.filter_cons]
        rw [if_neg (by simp only [decide_eq_true_eq]; omega)]
      · -- the new group for p.2, then the remaining new labels
        congr 1
        · simp only [List.filter_cons]
          rw [if_pos (by simp)]
          simp
        · apply List.map_eq_map_iff.mpr
          intro c hc
          have hcp : c ≠ p.2 := by
            intro he
            have := firstLabelsEx_not_mem_seen rest (keys acc ++ [p.2]) c hc
            exact this (by simp [he])
          simp only [List.filter_cons]
          rw [if_neg (by simp only [decide_eq_true_eq]; omega)]
    · -- existing label: the group is extended in place
      have hmem : p.2 ∈ keys acc := by
        rw [← dget_isSome_iff, hg]
        rfl
      have hnd' : (keys (dset acc p.2 (l ++ [p.1]))).Nodup := nodup_keys_dset _ hnd
      simp only []
      rw [ih (dset acc p.2 (l ++ [p.1])) hnd']
      rw [keys_dset_of_mem _ hmem]
      have hfl : firstLabelsEx (keys acc) (p :: rest)
          = firstLabelsEx (keys acc) rest := by
        rw [firstLabelsEx]
        rw [if_pos (List.elem_iff.mpr hmem)]
      rw [hfl]
      congr 1
      · rw [map_dset_append acc p.1 (fun c => (rest.filter (fun r => r.2 = c)).map Prod.fst) hg hnd]
        apply List.map_eq_map_iff.mpr
        intro q hq
        simp only [List.filter_cons]
        by_cases hqk : q.1 = p.2
        · simp [hqk]
        · have hqk' : ¬ p.2 = q.1 := fun he => hqk he.symm
          simp [hqk, hqk']
      · apply List.map_eq_map_iff.mpr
        intro c hc
        have hcp : c ≠ p.2 := by
          intro he
          exact (firstLabelsEx_not_mem_seen rest (keys acc) c hc) (he ▸ hmem)
        simp only [List.filter_cons]
        rw [if_neg (by simp only [decide_eq_true_eq]; omega)]

/-- `_invert_dict` fully characterised: one group per distinct label, in
order of first appearance, each group listing exactly the vertices carrying
that label, in dict order. -/
theorem invert_dict_eq (d : List (Nat × Int)) :
    invert_dict d = (firstLabels d).map
      (fun c => (c, (d.filter (fun p => p.2 = c)).map Prod.fst)) := by
  have h := invert_foldl d [] (by simp [keys])
  simpa [invert_dict, firstLabels, keys] using h

/-- **C4 (amended)**: the engine's returned value has one ordered group per
distinct final label, the groups ordered by first appearance of the label in
the final labeling dict (not indexed by community id), the group of label `c`
listing exactly the vertices whose final label is `c`; a vertex that never
became labeled is absent from every group. -/
theorem C4_output_grouping {G : Graph} {md : Rat} {vertices : List Nat}
    {communities : List (Nat × Int)} {density : List (Int × Rat)}
    {counts : List (Int × Int)} {mi : Nat} {groups : List (List Nat)}
    {s' : EngState} {passes : Nat}
    (hok : fluidc_modified G vertices communities density md counts mi
      = .ok (groups, s', passes)) :
    groups = (firstLabels s'.communities).map
      (fun c => (s'.communities.filter (fun p => p.2 = c)).map Prod.fst) ∧
    ∀ v : Nat, v ∉ keys s'.communities → ∀ g ∈ groups, v ∉ g := by
  rw [fluidc_modified] at hok
  split at hok
  · exact absurd hok (by simp)
  · rename_i s1 passes1 heq
    obtain ⟨hgroups, he, _⟩ : (invert_dict s1.communities).map Prod.snd = groups ∧ s1 = s' ∧
        passes1 = passes := by simpa using hok
    subst he
    constructor
    · rw [← hgroups, invert_dict_eq]
      simp [Function.comp]
    · intro v hv g hgmem hvg
      rw [← hgroups, invert_dict_eq] at hgmem
      simp only [List.map_map, List.mem_map, Function.comp] at hgmem
      obtain ⟨c, _, hgc⟩ := hgmem
      rw [← hgc] at hvg
      rcases List.mem_map.mp hvg with ⟨p, hp, hpv⟩
      exact hv (by
        rw [← hpv]
        exact List.mem_map.mpr ⟨p, (List.mem_filter.mp hp).1, rfl⟩)

/-- Counterexample to C4 as stated: invoking the engine on the single edge
`0-1` with initial labels `{0 ↦ 1, 1 ↦ 0}` (already stable) returns groups
`[[0], [1]]`; the group at index 0 is `[0]`, but the vertices whose final
label is 0 are `[1]` — groups follow first-appearance order of labels, not
community ids. -/
theorem C4_counterexample :
    fluidc_modified pathG2 [0, 1] [(0, 1), (1, 0)] [(0, 1), (1, 1)] 1 [(0, 1), (1, 1)] 1
      = .ok ([[0], [1]], ⟨[(0, 1), (1, 0)], [(0, 1), (1, 1)], [(0, 1), (1, 1)]⟩, 1) ∧
    (([[0], [1]] : List (List Nat)).getD 0 [] ≠
      ((([(0, 1), (1, 0)] : List (Nat × Int)).filter (fun p => p.2 = 0)).map Prod.fst)) := by
  constructor
  · have hstable : runPass pathG2 1 [0, 1] ⟨[(0, 1), (1, 0)], [(0, 1), (1, 1)], [(0, 1), (1, 1)]⟩
        false = .ok (⟨[(0, 1), (1, 0)], [(0, 1), (1, 1)], [(0, 1), (1, 1)]⟩, false) := by
      norm_num [runPass, updateVertex, applyRelabel, buildCounter, cupd, dget, dset,
        bestComs, listMax, nearTieTol, comDensities, argminPair, pathG2, Graph.adj,
        -Prod.mk_zero_zero, -Prod.mk_one_one]
    rw [fluidc_modified, engineLoop, hstable]
    norm_num [invert_dict, dget, dset, -Prod.mk_zero_zero, -Prod.mk_one_one]
  · decide

/-- Witness for C4: the grouping equations instantiated on the 4-cycle run. -/
theorem C4_witness :
    ([[0, 3], [1, 2]] : List (List Nat)) = (firstLabels [(0, 0), (1, 1), (2, 1), (3, 0)]).map
      (fun c => (([(0, 0), (1, 1), (2, 1), (3, 0)] : List (Nat × Int)).filter
        (fun p => p.2 = c)).map Prod.fst) ∧
    ∀ v : Nat, v ∉ keys [(0, 0), (1, 1), (2, 1), (3, 0)] →
      ∀ g ∈ ([[0, 3], [1, 2]] : List (List Nat)), v ∉ g :=
  C4_output_grouping ringEngineRun

/-! ## C10: the unprotected division in the departure update -/

/-- **C10**: the departure update divides by the decremented count with only
the `KeyError` handled. (i) Whenever a vertex with a non-empty vote counter
changes label, all candidates' counts are present and positive, and any
departed community's count is at least 2, the update succeeds — it is total
with no division by zero. (ii) A departing sole counted member of a
community makes the `ZeroDivisionError` reachable, and it escapes
`fluidc_modified` uncaught. -/
theorem C10_divzero_guard_gap (G : Graph) (md : Rat) :
    (∀ (s : EngState) (vertex : Nat) (cont : Bool),
      buildCounter G s vertex ≠ [] →
      (∀ c, dget s.communities vertex = some c →
        c ∉ bestComs (buildCounter G s vertex)) →
      (∀ b ∈ bestComs (buildCounter G s vertex),
        ∃ n : Int, dget s.com_to_numvertices b = some n ∧ 0 < n) →
      (∀ old n, dget s.communities vertex = some old →
        dget s.com_to_numvertices old = some n → 2 ≤ n) →
      ∃ s', updateVertex G md s vertex cont = .ok (s', true)) ∧
    updateVertex starG3 1 ⟨[(0, 0), (1, 1), (2, 1)], [(0, 1), (1, 1)], [(0, 1), (1, 1)]⟩ 0 false
      = .error .zeroDivisionError ∧
    fluidc_modified starG3 [0, 1, 2] [(0, 0), (1, 1), (2, 1)] [(0, 1), (1, 1)] 1
      [(0, 1), (1, 1)] 100 = .error .zeroDivisionError := by
  refine ⟨?_, ?_, ?_⟩
  · intro s vertex cont hcnt hnk hcounts hdep
    have hemp : (buildCounter G s vertex).isEmpty = false := List.isEmpty_eq_false.mpr hcnt
    have hnc1 : (match dget s.communities vertex with
        | some c => if (bestComs (buildCounter G s vertex)).contains c then c else (-1 : Int)
        | none => (-1 : Int)) = -1 := by
      rcases hd : dget s.communities vertex with _ | c
      · rfl
      · have hcon : ((bestComs (buildCounter G s vertex)).contains c) = false := by
          rw [← Bool.not_eq_true, List.elem_iff]
          exact hnk c hd
        simp only [hcon]
        simp
    rw [updateVertex]
    simp only [hemp, Bool.false_eq_true, if_false, hnc1, ne_eq, not_true_eq_false]
    by_cases hlen : 1 < (bestComs (buildCounter G s vertex)).length
    · rw [if_pos hlen]
      obtain ⟨pairs, hcd⟩ := comDensities_total
        (fun b hb => (hcounts b hb).imp (fun n hn => ⟨hn.1, by omega⟩))
      rw [hcd]
      cases pairs with
      | nil =>
        exfalso
        obtain ⟨hmap, _⟩ := comDensities_ok hcd
        exact bestComs_ne_nil hcnt (by simpa using hmap.symm)
      | cons p rest =>
        have hmem : (argminPair p rest).1 ∈ bestComs (buildCounter G s vertex) := by
          obtain ⟨hmap, _⟩ := comDensities_ok hcd
          rw [← hmap]
          exact List.mem_map.mpr ⟨argminPair p rest, argminPair_mem p rest, rfl⟩
        obtain ⟨s', hs'⟩ := @applyRelabel_total md _ _ _ (hcounts _ hmem) hdep
        exact ⟨s', by simp only []; exact hs'⟩
    · rw [if_neg hlen]
      rcases hbest : bestComs (buildCounter G s vertex) with _ | ⟨b, bs⟩
      · exact absurd hbest (bestComs_ne_nil hcnt)
      · have hmem : b ∈ bestComs (buildCounter G s vertex) := by
          rw [hbest]; exact List.mem_cons_self b bs
        obtain ⟨s', hs'⟩ := @applyRelabel_total md _ _ _ (hcounts _ hmem) hdep
        exact ⟨s', by simp only []; exact hs'⟩
  · norm_num [updateVertex, applyRelabel, buildCounter, cupd, dget, dset, bestComs,
      listMax, nearTieTol, comDensities, argminPair, starG3, Graph.adj,
      -Prod.mk_zero_zero, -Prod.mk_one_one]
  · have herr : runPass starG3 1 [0, 1, 2]
        ⟨[(0, 0), (1, 1), (2, 1)], [(0, 1), (1, 1)], [(0, 1), (1, 1)]⟩ false
        = .error .zeroDivisionError := by
      norm_num [runPass, updateVertex, applyRelabel, buildCounter, cupd, dget, dset,
        bestComs, listMax, nearTieTol, comDensities, argminPair, starG3, Graph.adj,
        -Prod.mk_zero_zero, -Prod.mk_one_one]
    rw [fluidc_modified, engineLoop, herr]

/-- Witness for C10's totality part: on the 4-cycle seed state, the
unlabeled vertex 2 has the single candidate community 1 with count 1 and no
departed community, so the update succeeds. -/
theorem C10_witness :
    ∃ s', updateVertex ringG 1 ⟨[(0, 0), (1, 1)], [(0, 1), (1, 1)], [(0, 1), (1, 1)]⟩ 2 false
      = .ok (s', true) := by
  apply (C10_divzero_guard_gap ringG 1).1
  · norm_num [buildCounter, cupd, dget, dset, ringG, Graph.adj]
  · intro c hd
    simp [dget] at hd
  · intro b hb
    refine ⟨1, ?_, by omega⟩
    have : b = 1 := by
      simpa [buildCounter, cupd, dget, dset, ringG, Graph.adj, bestComs, listMax,
        nearTieTol] using hb
    subst this
    norm_num [dget]
  · intro old n hd
    simp [dget] at hd

/-! ## C5: the bad-restart gating rule -/

/-- **C5**: in every restart-loop iteration with `iter ≠ 0`, the similarity
score between the new flat labels and the previous restart's labels is
computed and appended to the score trace, and exactly when it is strictly
below the running minimum the seed set is merged into the bad-seed history,
the bad-restart counter is incremented and the minimum updated; with
`iter = 0` (the first restart) none of this happens. The final
`seed_init_num` equals the gate's counter unless seed derivation exhausts a
pool, which overrides it with 10. -/
theorem C5_bad_restart_gating (n : Nat) (scorer : List Int → List Int → Rat)
    (oracle : RandomOracle) (s : CtrlState) (nc : List (List Nat)) (es : EngState) :
    (s.iter ≠ 0 →
      (restartFinish n scorer oracle s nc es).nmi_list
          = s.nmi_list ++ [scorer (nodes_color n nc) (s.old_communities.getD [])] ∧
      (scorer (nodes_color n nc) (s.old_communities.getD []) < s.min_NMI →
        (restartFinish n scorer oracle s nc es).bad_seed_set
            = dunion s.bad_seed_set s.seed_set ∧
        (restartFinish n scorer oracle s nc es).min_NMI
            = scorer (nodes_color n nc) (s.old_communities.getD []) ∧
        (scoreGate scorer s.iter (nodes_color n nc) s.old_communities s.min_NMI
            s.bad_seed_set s.seed_set s.seed_init_num s.nmi_list).2.2.1
          = s.seed_init_num + 1) ∧
      (¬ scorer (nodes_color n nc) (s.old_communities.getD []) < s.min_NMI →
        (restartFinish n scorer oracle s nc es).bad_seed_set = s.bad_seed_set ∧
        (restartFinish n scorer oracle s nc es).min_NMI = s.min_NMI ∧
        (scoreGate scorer s.iter (nodes_color n nc) s.old_communities s.min_NMI
            s.bad_seed_set s.seed_set s.seed_init_num s.nmi_list).2.2.1
          = s.seed_init_num)) ∧
    (s.iter = 0 →
      (restartFinish n scorer oracle s nc es).nmi_list = s.nmi_list ∧
      (restartFinish n scorer oracle s nc es).bad_seed_set = s.bad_seed_set ∧
      (restartFinish n scorer oracle s nc es).min_NMI = s.min_NMI ∧
      (scoreGate scorer s.iter (nodes_color n nc) s.old_communities s.min_NMI
          s.bad_seed_set s.seed_set s.seed_init_num s.nmi_list).2.2.1
        = s.seed_init_num) ∧
    (restartFinish n scorer oracle s nc es).seed_init_num
      = (if (seedLoop oracle.pick nc
            (scoreGate scorer s.iter (nodes_color n nc) s.old_communities s.min_NMI
              s.bad_seed_set s.seed_set s.seed_init_num s.nmi_list).2.1 [] 0 [] s.t).2.1
          then 10
          else (scoreGate scorer s.iter (nodes_color n nc) s.old_communities s.min_NMI
            s.bad_seed_set s.seed_set s.seed_init_num s.nmi_list).2.2.1) := by
  refine ⟨?_, ?_, ?_⟩
  · intro hiter
    by_cases hlt : scorer (nodes_color n nc) (s.old_communities.getD []) < s.min_NMI
    · refine ⟨?_, fun _ => ⟨?_, ?_, ?_⟩, fun hnlt => absurd hlt hnlt⟩ <;>
        simp [restartFinish, scoreGate, hiter, hlt]
    · refine ⟨?_, fun hlt' => absurd hlt' hlt, fun _ => ⟨?_, ?_, ?_⟩⟩ <;>
        simp [restartFinish, scoreGate, hiter, hlt]
  · intro hiter
    refine ⟨?_, ?_, ?_, ?_⟩ <;> simp [restartFinish, scoreGate, hiter]
  · rfl

/-- Witness for C5 at a concrete input: with the always-0 scorer, a state at
`iter = 1` and `min_NMI = 1`, the gate fires — the seed set is merged into
the history and the minimum becomes the score. -/
theorem C5_witness :
    (restartFinish 2 zeroScorer oracle0
        ⟨[(5, 0)], [(9, 9)], [], [], 1, 0, 1, some [0, 0], none, [], 0⟩
        [[0], [1]] ⟨[], [], []⟩).bad_seed_set = dunion [(9, 9)] [(5, 0)] ∧
    (restartFinish 2 zeroScorer oracle0
        ⟨[(5, 0)], [(9, 9)], [], [], 1, 0, 1, some [0, 0], none, [], 0⟩
        [[0], [1]] ⟨[], [], []⟩).min_NMI
      = zeroScorer (nodes_color 2 [[0], [1]]) [0, 0] := by
  have h := C5_bad_restart_gating 2 zeroScorer oracle0
    ⟨[(5, 0)], [(9, 9)], [], [], 1, 0, 1, some [0, 0], none, [], 0⟩ [[0], [1]] ⟨[], [], []⟩
  obtain ⟨_, hpos, _⟩ := h.1 (by norm_num)
  obtain ⟨hb, hm, _⟩ := hpos (by norm_num [zeroScorer])
  exact ⟨hb, hm⟩

/-! ## C6: seed-generation exhaustion -/

/-- **C6**: if during seed derivation the current community's candidate pool
(members minus the vertices rejected this round) is empty, the derivation
loop aborts immediately, returning the partial seed dict and the exhaustion
flag; the restart tail maps the flag to `seed_init_num = 10` while still
recording the restart's partition; and a state with `seed_init_num ≥ 10`
makes the restart loop return it as-is — a normal return, not an
exception. -/
theorem C6_seed_exhaustion (G : Graph) (mi : Nat) (scorer : List Int → List Int → Rat)
    (oracle : RandomOracle) :
    (∀ (pick : Nat → Nat) (groups : List (List Nat)) (bad seed : List (Nat × Int))
        (idx : Nat) (removed : List Nat) (t : Nat),
      idx < groups.length → seedPool (groups.getD idx []) removed = [] →
      seedLoop pick groups bad seed idx removed t = (seed, true, t)) ∧
    (∀ (n : Nat) (scorer' : List Int → List Int → Rat) (oracle' : RandomOracle)
        (s : CtrlState) (nc : List (List Nat)) (es : EngState),
      (seedLoop oracle'.pick nc
        (scoreGate scorer' s.iter (nodes_color n nc) s.old_communities s.min_NMI
          s.bad_seed_set s.seed_set s.seed_init_num s.nmi_list).2.1 [] 0 [] s.t).2.1 = true →
      (restartFinish n scorer' oracle' s nc es).seed_init_num = 10 ∧
      (restartFinish n scorer' oracle' s nc es).new_communities = some nc) ∧
    (∀ s : CtrlState, 10 ≤ s.seed_init_num →
      ctrlLoop G mi scorer oracle s = .ok s) := by
  refine ⟨?_, ?_, ?_⟩
  · intro pick groups bad seed idx removed t hidx hpool
    rw [seedLoop]
    rw [dif_pos hidx]
    simp only [hpool]
    simp
  · intro n scorer' oracle' s nc es hexh
    constructor
    · simp only [restartFinish, hexh]
      rfl
    · rfl
  · intro s h10
    rw [ctrlLoop]
    rw [dif_neg (fun hc => by omega)]

/-- Witness for C6: a state whose bad-restart counter is at the cap makes
the restart loop return it unchanged. -/
theorem C6_witness :
    ctrlLoop ringG 5 zeroScorer oracle0
      ⟨[], [], [], [], 1, 10, 0, none, some [[0, 3], [1, 2]], [], 0⟩
      = .ok ⟨[], [], [], [], 1, 10, 0, none, some [[0, 3], [1, 2]], [], 0⟩ :=
  (C6_seed_exhaustion ringG 5 zeroScorer oracle0).2.2 _ (by norm_num)

/-! ## C8: bad-seed history monotonicity -/

theorem dunion_keys :
    ∀ (d2 d1 : List (Nat × Int)) (v : Nat),
      (v ∈ keys d1 ∨ v ∈ keys d2) → v ∈ keys (dunion d1 d2) := by
  intro d2
  induction d2 with
  | nil =>
    intro d1 v h
    rcases h with h | h
    · exact h
    · simp [keys] at h
  | cons p rest ih =>
    intro d1 v h
    have hstep : dunion d1 (p :: rest) = dunion (dset d1 p.1 p.2) rest := rfl
    rw [hstep]
    rcases h with h | h
    · exact ih _ v (Or.inl ((mem_keys_dset p.2).mpr (Or.inl h)))
    · have h' : v = p.1 ∨ ∃ x, (v, x) ∈ rest := by simpa [keys] using h
      rcases h' with rfl | ⟨x, hx⟩
      · exact ih _ p.1 (Or.inl ((mem_keys_dset p.2).mpr (Or.inr rfl)))
      · exact ih _ v (Or.inr ((mem_keys rest v).mpr ⟨x, hx⟩))

theorem scoreGate_bad_mono (scorer : List Int → List Int → Rat) (iter : Nat)
    (new_list : List Int) (old : Option (List Int)) (min_NMI : Rat)
    (bad seed : List (Nat × Int)) (sin : Nat) (nmi_list : List Rat) :
    ∀ v ∈ keys bad,
      v ∈ keys (scoreGate scorer iter new_list old min_NMI bad seed sin nmi_list).2.1 := by
  intro v hv
  rw [scoreGate]
  split
  · split
    · exact dunion_keys seed bad v (Or.inl hv)
    · exact hv
  · exact hv

theorem restartStep_iter {G : Graph} {mi : Nat} {scorer : List Int → List Int → Rat}
    {oracle : RandomOracle} {s s' : CtrlState}
    (hok : restartStep G mi scorer oracle s = .ok s') : s'.iter = s.iter + 1 := by
  rw [restartStep] at hok
  split at hok
  · exact absurd hok (by simp)
  · rename_i nc es passes heq
    obtain rfl : restartFinish G.n scorer oracle s nc es = s' := by simpa using hok
    rfl

theorem restartStep_bad_mono {G : Graph} {mi : Nat} {scorer : List Int → List Int → Rat}
    {oracle : RandomOracle} {s s' : CtrlState}
    (hok : restartStep G mi scorer oracle s = .ok s') :
    ∀ v ∈ keys s.bad_seed_set, v ∈ keys s'.bad_seed_set := by
  rw [restartStep] at hok
  split at hok
  · exact absurd hok (by simp)
  · rename_i nc es passes heq
    obtain rfl : restartFinish G.n scorer oracle s nc es = s' := by simpa using hok
    intro v hv
    exact scoreGate_bad_mono scorer s.iter (nodes_color G.n nc) s.old_communities
      s.min_NMI s.bad_seed_set s.seed_set s.seed_init_num s.nmi_list v hv

theorem ctrlLoop_bad_mono {G : Graph} {mi : Nat} {scorer : List Int → List Int → Rat}
    {oracle : RandomOracle} :
    ∀ (fuel : Nat) (s s' : CtrlState), mi - s.iter ≤ fuel →
      ctrlLoop G mi scorer oracle s = .ok s' →
      ∀ v ∈ keys s.bad_seed_set, v ∈ keys s'.bad_seed_set := by
  intro fuel
  induction fuel with
  | zero =>
    intro s s' hf hok v hv
    rw [ctrlLoop] at hok
    by_cases hc : s.seed_init_num < 10 ∧ s.iter < mi
    · omega
    · rw [dif_neg hc] at hok
      obtain rfl : s = s' := by simpa using hok
      exact hv
  | succ fuel ih =>
    intro s s' hf hok v hv
    rw [ctrlLoop] at hok
    by_cases hc : s.seed_init_num < 10 ∧ s.iter < mi
    · rw [dif_pos hc] at hok
      split at hok
      · exact absurd hok (by simp)
      · rename_i s1 heq
        have hiter := restartStep_iter heq
        exact ih s1 s' (by omega) hok v (restartStep_bad_mono heq v hv)
    · rw [dif_neg hc] at hok
      obtain rfl : s = s' := by simpa using hok
      exact hv

/-- **C8**: the bad-seed history starts out containing the very first random
seed set, every restart-loop iteration only grows it, and hence across the
whole loop the key set at any later point is a superset of the key set at
any earlier point. -/
theorem C8_bad_seed_monotonicity (G : Graph) (k mi : Nat)
    (scorer : List Int → List Int → Rat) (oracle : RandomOracle) :
    (∀ v ∈ keys (ctrlInit G k oracle).seed_set,
      v ∈ keys (ctrlInit G k oracle).bad_seed_set) ∧
    (∀ s s', restartStep G mi scorer oracle s = .ok s' →
      ∀ v ∈ keys s.bad_seed_set, v ∈ keys s'.bad_seed_set) ∧
    (∀ s s', ctrlLoop G mi scorer oracle s = .ok s' →
      ∀ v ∈ keys s.bad_seed_set, v ∈ keys s'.bad_seed_set) := by
  refine ⟨?_, ?_, ?_⟩
  · intro v hv
    exact dunion_keys _ [] v (Or.inr hv)
  · intro s s' hok
    exact restartStep_bad_mono hok
  · intro s s' hok
    exact ctrlLoop_bad_mono (mi - s.iter) s s' (le_refl _) hok

/-- Witness for C8: vertex 0 is in the initial seed set of the 4-cycle run
and therefore pre-seeded into the bad-seed history. -/
theorem C8_witness : (0 : Nat) ∈ keys (ctrlInit ringG 2 oracle0).bad_seed_set :=
  (C8_bad_seed_monotonicity ringG 2 1 zeroScorer oracle0).1 0 (by decide)

/-! ## C7: the restart-cap scenario -/

theorem sortedRing : sortedVertices ringG = [0, 1, 2, 3] := by
  rw [sortedVertices]
  have hr : List.range ringG.n = [0, 1, 2, 3] := by decide
  rw [hr]
  exact List.mergeSort_of_sorted (by decide)

theorem ringSeedLoop :
    seedLoop oracle0.pick [[0, 3], [1, 2]] [(0, 0), (1, 1)] [] 0 [] 0
      = ([(3, 0), (2, 1)], false, 4) := by
  rw [seedLoop]
  norm_num [seedPool, oracle0, dset]
  rw [seedLoop]
  norm_num [seedPool, oracle0, dset]
  rw [seedLoop]
  norm_num [seedPool, oracle0, dset]
  rw [seedLoop]
  norm_num [seedPool, oracle0, dset]
  rw [seedLoop]
  norm_num
  decide

/-- The single restart executed by `fluidc_plus` on the 4-cycle with the
always-0 scorer and `max_iter = 1`. -/
theorem ringCtrlStep :
    restartStep ringG 1 zeroScorer oracle0 (ctrlInit ringG 2 oracle0)
      = .ok ⟨[(3, 0), (2, 1)], [(0, 0), (1, 1)], [(0, 1/2), (1, 1/2)], [(0, 2), (1, 2)],
          1, 0, 1, some [0, 1, 1, 0], some [[0, 3], [1, 2]], [], 4⟩ := by
  have hengine : fluidc_modified ringG (sortedVertices ringG)
      (ctrlInit ringG 2 oracle0).seed_set
      (seedInit max_density (ctrlInit ringG 2 oracle0).seed_set
        (ctrlInit ringG 2 oracle0).density
        (ctrlInit ringG 2 oracle0).com_to_numvertices).1
      max_density
      (seedInit max_density (ctrlInit ringG 2 oracle0).seed_set
        (ctrlInit ringG 2 oracle0).density
        (ctrlInit ringG 2 oracle0).com_to_numvertices).2 1
      = .ok ([[0, 3], [1, 2]],
          ⟨[(0, 0), (1, 1), (2, 1), (3, 0)], [(0, 1/2), (1, 1/2)], [(0, 2), (1, 2)]⟩, 2) := by
    rw [sortedRing]
    exact ringEngineRun
  rw [restartStep, hengine]
  have hfinish : restartFinish ringG.n zeroScorer oracle0 (ctrlInit ringG 2 oracle0)
      [[0, 3], [1, 2]]
      ⟨[(0, 0), (1, 1), (2, 1), (3, 0)], [(0, 1/2), (1, 1/2)], [(0, 2), (1, 2)]⟩
      = ⟨[(3, 0), (2, 1)], [(0, 0), (1, 1)], [(0, 1/2), (1, 1/2)], [(0, 2), (1, 2)],
          1, 0, 1, some [0, 1, 1, 0], some [[0, 3], [1, 2]], [], 4⟩ := by
    rw [restartFinish]
    rw [show (scoreGate zeroScorer (ctrlInit ringG 2 oracle0).iter
        (nodes_color ringG.n [[0, 3], [1, 2]]) (ctrlInit ringG 2 oracle0).old_communities
        (ctrlInit ringG 2 oracle0).min_NMI (ctrlInit ringG 2 oracle0).bad_seed_set
        (ctrlInit ringG 2 oracle0).seed_set (ctrlInit ringG 2 oracle0).seed_init_num
        (ctrlInit ringG 2 oracle0).nmi_list)
      = ((1 : Rat), [(0, 0), (1, 1)], 0, ([] : List Rat)) from rfl]
    rw [show (ctrlInit ringG 2 oracle0).t = 0 from rfl]
    rw [ringSeedLoop]
    rfl
  simp only []
  rw [hfinish]

/-- Counterexample to C7 as stated: with the always-0 scorer and
`maxIterations = 1` on the 4-cycle, the Controller stops after exactly ONE
restart (the iteration cap), with `badRestartCount = 0`, not after 10
restarts with the counter at its cap — the scorer returning 0 on the first
scored restart sets `minScore` to 0, and no later score can be strictly
below it, so the cap-by-bad-restarts scenario never occurs. -/
theorem C7_counterexample :
    fluidc_plus_state ringG 2 1 zeroScorer oracle0
      = .ok ⟨[(3, 0), (2, 1)], [(0, 0), (1, 1)], [(0, 1/2), (1, 1/2)], [(0, 2), (1, 2)],
          1, 0, 1, some [0, 1, 1, 0], some [[0, 3], [1, 2]], [], 4⟩ ∧
    (1 : Nat) ≠ 10 ∧ (0 : Nat) ≠ 10 := by
  refine ⟨?_, by omega, by omega⟩
  have h2 : ctrlLoop ringG 1 zeroScorer oracle0
      ⟨[(3, 0), (2, 1)], [(0, 0), (1, 1)], [(0, 1/2), (1, 1/2)], [(0, 2), (1, 2)],
        1, 0, 1, some [0, 1, 1, 0], some [[0, 3], [1, 2]], [], 4⟩
      = .ok ⟨[(3, 0), (2, 1)], [(0, 0), (1, 1)], [(0, 1/2), (1, 1/2)], [(0, 2), (1, 2)],
        1, 0, 1, some [0, 1, 1, 0], some [[0, 3], [1, 2]], [], 4⟩ := by
    rw [ctrlLoop]
    rw [dif_neg (by intro hc; exact absurd hc.2 (by decide))]
  rw [fluidc_plus_state, ctrlLoop]
  rw [dif_pos (by exact ⟨by decide, by decide⟩)]
  split
  · rename_i e heq
    rw [ringCtrlStep] at heq
    exact absurd heq (by simp)
  · rename_i s1 heq
    rw [ringCtrlStep] at heq
    obtain rfl := (Except.ok.inj heq)
    exact h2

/-- **C7 (amended)**: with the always-0 scorer and `maxIterations = 1`, any
successful run of the Controller performs exactly one restart — stopped by
the iteration cap, not the bad-restart cap: no score is recorded, `minScore`
stays 1, `badRestartCount` ends at 0 (or 10 only through seed-pool
exhaustion), and the single restart's partition is returned. -/
theorem C7_restart_cap (G : Graph) (k : Nat) (oracle : RandomOracle) :
    ∀ s', fluidc_plus_state G k 1 zeroScorer oracle = .ok s' →
      s'.iter = 1 ∧ s'.nmi_list = [] ∧ s'.min_NMI = 1 ∧
      (s'.seed_init_num = 0 ∨ s'.seed_init_num = 10) ∧
      ∃ nc, s'.new_communities = some nc ∧
        fluidc_plus G k 1 zeroScorer oracle = .ok (some nc) := by
  intro s' hok
  have hplus : fluidc_plus G k 1 zeroScorer oracle = .ok s'.new_communities := by
    rw [fluidc_plus, hok]
  rw [fluidc_plus_state, ctrlLoop] at hok
  rw [dif_pos (by exact ⟨by norm_num [ctrlInit], by norm_num [ctrlInit]⟩)] at hok
  split at hok
  · exact absurd hok (by simp)
  · rename_i s1 heq
    have hiter1 : s1.iter = 1 := restartStep_iter heq
    rw [ctrlLoop] at hok
    rw [dif_neg (by intro hc; omega)] at hok
    obtain rfl : s1 = s' := by simpa using hok
    rw [restartStep] at heq
    split at heq
    · exact absurd heq (by simp)
    · rename_i nc es passes hengine
      obtain rfl : restartFinish G.n zeroScorer oracle (ctrlInit G k oracle) nc es = s1 := by
        simpa using heq
      refine ⟨hiter1, rfl, rfl, ?_, nc, rfl, hplus⟩
      rcases hB : (seedLoop oracle.pick nc (ctrlInit G k oracle).bad_seed_set [] 0 [] 0).2.1
        with _ | _
      · left
        show (if (seedLoop oracle.pick nc (ctrlInit G k oracle).bad_seed_set [] 0 [] 0).2.1
          then 10 else 0) = 0
        rw [hB]
        rfl
      · right
        show (if (seedLoop oracle.pick nc (ctrlInit G k oracle).bad_seed_set [] 0 [] 0).2.1
          then 10 else 0) = 10
        rw [hB]
        rfl

/-- Witness for the amended C7 at the concrete 4-cycle run. -/
theorem C7_witness :
    ((⟨[(3, 0), (2, 1)], [(0, 0), (1, 1)], [(0, 1/2), (1, 1/2)], [(0, 2), (1, 2)],
        1, 0, 1, some [0, 1, 1, 0], some [[0, 3], [1, 2]], [], 4⟩ : CtrlState).iter = 1 ∧
      (⟨[(3, 0), (2, 1)], [(0, 0), (1, 1)], [(0, 1/2), (1, 1/2)], [(0, 2), (1, 2)],
        1, 0, 1, some [0, 1, 1, 0], some [[0, 3], [1, 2]], [], 4⟩ : CtrlState).nmi_list = [] ∧
      (⟨[(3, 0), (2, 1)], [(0, 0), (1, 1)], [(0, 1/2), (1, 1/2)], [(0, 2), (1, 2)],
        1, 0, 1, some [0, 1, 1, 0], some [[0, 3], [1, 2]], [], 4⟩ : CtrlState).min_NMI = 1 ∧
      ((⟨[(3, 0), (2, 1)], [(0, 0), (1, 1)], [(0, 1/2), (1, 1/2)], [(0, 2), (1, 2)],
        1, 0, 1, some [0, 1, 1, 0], some [[0, 3], [1, 2]], [], 4⟩ : CtrlState).seed_init_num = 0 ∨
       (⟨[(3, 0), (2, 1)], [(0, 0), (1, 1)], [(0, 1/2), (1, 1/2)], [(0, 2), (1, 2)],
        1, 0, 1, some [0, 1, 1, 0], some [[0, 3], [1, 2]], [], 4⟩ : CtrlState).seed_init_num = 10) ∧
      ∃ nc, (⟨[(3, 0), (2, 1)], [(0, 0), (1, 1)], [(0, 1/2), (1, 1/2)], [(0, 2), (1, 2)],
        1, 0, 1, some [0, 1, 1, 0], some [[0, 3], [1, 2]], [], 4⟩ : CtrlState).new_communities
          = some nc ∧
        fluidc_plus ringG 2 1 zeroScorer oracle0 = .ok (some nc)) :=
  C7_restart_cap ringG 2 oracle0 _ C7_counterexample.1

/-! ## C9: fresh bookkeeping per restart.
First, generic preservation scaffolding over the engine's layers. -/

theorem dset_of_not_mem {α β : Type} [DecidableEq α] {d : List (α × β)} {k : α} (v : β)
    (h : k ∉ keys d) : dset d k v = d ++ [(k, v)] := by
  induction d with
  | nil => rfl
  | cons p rest ih =>
    have hp : p.1 ≠ k := fun hh => h (by simp [keys, hh])
    have hrest : k ∉ keys rest := fun hh => h (by simp [keys] at hh ⊢; exact Or.inr hh)
    simp [dset, hp, ih hrest]

theorem countVal_eq_count (d : List (Nat × Int)) (c : Int) :
    countVal d c = (d.map Prod.snd).count c := by
  induction d with
  | nil => rfl
  | cons p rest ih =>
    rw [countVal_cons, ih]
    by_cases hc : p.2 = c
    · simp [hc, List.count_cons]
      omega
    · simp [List.count_cons, hc]

theorem runPass_pres {G : Graph} {md : Rat} (P : EngState → Prop)
    (hstep : ∀ s vertex cont s' cont',
      updateVertex G md s vertex cont = .ok (s', cont') → P s → P s') :
    ∀ (vertices : List Nat) (s : EngState) (cont : Bool) (s' : EngState) (cont' : Bool),
      runPass G md vertices s cont = .ok (s', cont') → P s → P s' := by
  intro vertices
  induction vertices with
  | nil =>
    intro s cont s' cont' hok h
    obtain ⟨rfl, _⟩ : s = s' ∧ cont = cont' := by simpa [runPass] using hok
    exact h
  | cons v rest ih =>
    intro s cont s' cont' hok h
    rw [runPass] at hok
    split at hok
    · exact absurd hok (by simp)
    · rename_i s1 cont1 heq
      exact ih s1 cont1 s' cont' hok (hstep s v cont s1 cont1 heq h)

theorem engineLoop_pres {G : Graph} {md : Rat} {vertices : List Nat} (P : EngState → Prop)
    (hstep : ∀ s vertex cont s' cont',
      updateVertex G md s vertex cont = .ok (s', cont') → P s → P s') :
    ∀ (fuel ic mi : Nat) (s s' : EngState) (passes : Nat), mi + 1 - ic ≤ fuel →
      engineLoop G md vertices s ic mi = .ok (s', passes) → P s → P s' := by
  intro fuel
  induction fuel with
  | zero =>
    intro ic mi s s' passes hf hok h
    rw [engineLoop] at hok
    split at hok
    · exact absurd hok (by simp)
    · rename_i s1 cont1 heq
      have hlt : mi < ic + 1 := by omega
      rw [dif_pos hlt] at hok
      obtain ⟨he, _⟩ : s1 = s' ∧ ic + 1 = passes := by simpa using hok
      rw [← he]
      exact runPass_pres P hstep vertices s false s1 cont1 heq h
  | succ fuel ih =>
    intro ic mi s s' passes hf hok h
    rw [engineLoop] at hok
    split at hok
    · exact absurd hok (by simp)
    · rename_i s1 cont1 heq
      have h1 := runPass_pres P hstep vertices s false s1 cont1 heq h
      by_cases hlt : mi < ic + 1
      · rw [dif_pos hlt] at hok
        obtain ⟨he, _⟩ : s1 = s' ∧ ic + 1 = passes := by simpa using hok
        rw [← he]
        exact h1
      · rw [dif_neg hlt] at hok
        by_cases hcont : cont1 = true
        · rw [if_pos hcont] at hok
          exact ih (ic + 1) mi s1 s' passes (by omega) hok h1
        · rw [if_neg hcont] at hok
          obtain ⟨he, _⟩ : s1 = s' ∧ ic + 1 = passes := by simpa using hok
          rw [← he]
          exact h1

theorem fluidc_modified_pres {G : Graph} {md : Rat} {vertices : List Nat}
    (P : EngState → Prop)
    (hstep : ∀ s vertex cont s' cont',
      updateVertex G md s vertex cont = .ok (s', cont') → P s → P s')
    {communities : List (Nat × Int)} {density : List (Int × Rat)}
    {counts : List (Int × Int)} {mi : Nat} {groups : List (List Nat)}
    {s' : EngState} {passes : Nat}
    (hok : fluidc_modified G vertices communities density md counts mi
      = .ok (groups, s', passes))
    (h : P ⟨communities, density, counts⟩) :
    P s' ∧ groups = (invert_dict s'.communities).map Prod.snd := by
  rw [fluidc_modified] at hok
  split at hok
  · exact absurd hok (by simp)
  · rename_i s1 passes1 heq
    obtain ⟨hg, he, _⟩ : (invert_dict s1.communities).map Prod.snd = groups ∧ s1 = s' ∧
        passes1 = passes := by simpa using hok
    rw [← he]
    exact ⟨engineLoop_pres P hstep (mi + 1) 0 mi _ s1 passes1 (by omega) heq h, hg.symm⟩

theorem mem_dset {α β : Type} [DecidableEq α] {d : List (α × β)} {k : α} {v : β} {p : α × β}
    (h : p ∈ dset d k v) : p ∈ d ∨ p = (k, v) := by
  induction d with
  | nil => simpa [dset] using h
  | cons q rest ih =>
    by_cases hq : q.1 = k
    · rw [show dset (q :: rest) k v = (k, v) :: rest by simp [dset, hq]] at h
      rcases List.mem_cons.mp h with rfl | hm
      · exact Or.inr rfl
      · exact Or.inl (List.mem_cons_of_mem _ hm)
    · rw [show dset (q :: rest) k v = q :: dset rest k v by simp [dset, hq]] at h
      rcases List.mem_cons.mp h with rfl | hm
      · exact Or.inl (List.mem_cons_self _ _)
      · rcases ih hm with h' | h'
        · exact Or.inl (List.mem_cons_of_mem _ h')
        · exact Or.inr h'

theorem CountsPos_dset {counts : List (Int × Int)} {c v : Int}
    (h : CountsPos counts) (hv : 1 ≤ v) : CountsPos (dset counts c v) := by
  intro c' n hn
  by_cases he : c' = c
  · subst he
    rw [dget_dset_self] at hn
    have : v = n := by simpa using hn
    omega
  · rw [dget_dset_ne _ _ he] at hn
    exact h c' n hn

/-- Relabeling an unlabeled vertex keeps counts synchronised when the adopted
community's count is incremented. -/
theorem syncInv_relabel_none {d : List (Nat × Int)} {C : List (Int × Int)}
    {vertex : Nat} {new_com m : Int}
    (hSY : SyncInv d C) (hv : dget d vertex = none) (hm : dget C new_com = some m) :
    SyncInv (dset d vertex new_com) (dset C new_com (m + 1)) := by
  intro c n hn
  have hmv : m = (countVal d new_com : Int) := hSY _ _ hm
  rw [countVal_dset_of_none _ _ hv]
  by_cases hc : c = new_com
  · subst hc
    rw [dget_dset_self] at hn
    have hnm : m + 1 = n := by simpa using hn
    rw [if_pos rfl]
    push_cast
    omega
  · rw [dget_dset_ne _ _ hc] at hn
    have hns : n = (countVal d c : Int) := hSY _ _ hn
    rw [if_neg (fun hh => hc hh.symm)]
    push_cast
    omega

/-- Relabeling a vertex whose departed community is missing from the counts
(the swallowed `KeyError`) keeps counts synchronised. -/
theorem syncInv_relabel_miss {d : List (Nat × Int)} {C : List (Int × Int)}
    {vertex : Nat} {old new_com m : Int}
    (hSY : SyncInv d C) (hv : dget d vertex = some old)
    (hCold : dget C old = none) (hm : dget C new_com = some m) :
    SyncInv (dset d vertex new_com) (dset C new_com (m + 1)) := by
  intro c n hn
  have hmv : m = (countVal d new_com : Int) := hSY _ _ hm
  have hstar := countVal_dset_of_some (d := d) (k := vertex) (y := old) new_com c hv
  by_cases hc : c = new_com
  · subst hc
    rw [dget_dset_self] at hn
    have hnm : m + 1 = n := by simpa using hn
    have hone : old ≠ c := by
      intro he
      rw [he, hm] at hCold
      exact Option.noConfusion hCold
    rw [if_neg hone, if_pos rfl] at hstar
    omega
  · rw [dget_dset_ne _ _ hc] at hn
    have hns : n = (countVal d c : Int) := hSY _ _ hn
    have hoc : old ≠ c := by
      intro he
      rw [he, hn] at hCold
      exact Option.noConfusion hCold
    rw [if_neg hoc, if_neg (fun hh => hc hh.symm)] at hstar
    omega

/-- Relabeling with a successful departed-community decrement keeps counts
synchronised. -/
theorem syncInv_relabel_dec {d : List (Nat × Int)} {C : List (Int × Int)}
    {vertex : Nat} {old nOld new_com m : Int}
    (hSY : SyncInv d C) (hv : dget d vertex = some old)
    (hCold : dget C old = some nOld)
    (hm : dget (dset C old (nOld - 1)) new_com = some m) :
    SyncInv (dset d vertex new_com) (dset (dset C old (nOld - 1)) new_com (m + 1)) := by
  intro c n hn
  have hvC : nOld = (countVal d old : Int) := hSY _ _ hCold
  have hstar := countVal_dset_of_some (d := d) (k := vertex) (y := old) new_com c hv
  by_cases hone : old = new_com
  · subst hone
    have hmv : nOld - 1 = m := by
      rw [dget_dset_self] at hm
      simpa using hm
    by_cases hc : c = old
    · subst hc
      rw [dget_dset_self] at hn
      have hnm : m + 1 = n := by simpa using hn
      rw [if_pos rfl] at hstar
      omega
    · rw [dget_dset_ne _ _ hc, dget_dset_ne _ _ hc] at hn
      have hns : n = (countVal d c : Int) := hSY _ _ hn
      rw [if_neg (fun hh => hc hh.symm)] at hstar
      omega
  · have hmv : m = (countVal d new_com : Int) := by
      rw [dget_dset_ne _ _ (fun hh => hone hh.symm)] at hm
      exact hSY _ _ hm
    by_cases hc : c = new_com
    · subst hc
      rw [dget_dset_self] at hn
      have hnm : m + 1 = n := by simpa using hn
      rw [if_neg hone, if_pos rfl] at hstar
      omega
    · rw [dget_dset_ne _ _ hc] at hn
      by_cases hco : c = old
      · subst hco
        rw [dget_dset_self] at hn
        have hnm : nOld - 1 = n := by simpa using hn
        rw [if_pos rfl, if_neg (fun hh => hc hh.symm)] at hstar
        omega
      · rw [dget_dset_ne _ _ hco] at hn
        have hns : n = (countVal d c : Int) := hSY _ _ hn
        rw [if_neg (fun hh => hco hh.symm), if_neg (fun hh => hc hh.symm)] at hstar
        omega

/-- The label-change bookkeeping preserves engine-state well-formedness: the
dict keys stay within `0 .. k-1` (counts exactly that range), labels stay in
range with unique vertices, counts stay positive and synchronised with the
labeling — even when the departed community's `KeyError` was swallowed or the
vertex was unlabeled. -/
theorem engGood_applyRelabel {md : Rat} {k : Nat} {s : EngState} {vertex : Nat}
    {new_com : Int} {s' : EngState} {cont' : Bool}
    (hok : applyRelabel md s vertex new_com = .ok (s', cont'))
    (hg : EngGood k s) : EngGood k s' := by
  obtain ⟨hDK, hCK, hLR, hND, hSY, hCP⟩ := hg
  obtain ⟨-, s1, h1, m, hm, hm1, hs'⟩ := applyRelabel_ok hok
  -- facts about the intermediate state s1
  have hcomm1 : s1.communities = s.communities := by
    rcases h1 with ⟨-, rfl⟩ | ⟨o, nO, -, -, -, rfl⟩ <;> rfl
  have hkc1 : keys s1.com_to_numvertices = keys s.com_to_numvertices := by
    rcases h1 with ⟨-, rfl⟩ | ⟨o, nO, -, hco, -, rfl⟩
    · rfl
    · exact keys_dset_of_mem _
        ((dget_isSome_iff _ _).mp (by rw [hco]; rfl))
  have hDK1 : ∀ c ∈ keys s1.density, 0 ≤ c ∧ c < (k : Int) := by
    rcases h1 with ⟨-, rfl⟩ | ⟨o, nO, -, hco, -, rfl⟩
    · exact hDK
    · intro c hc
      rcases (mem_keys_dset _).mp hc with hc' | rfl
      · exact hDK c hc'
      · exact (hCK c).mp ((dget_isSome_iff _ _).mp (by rw [hco]; rfl))
  have hCP1 : CountsPos s1.com_to_numvertices := by
    rcases h1 with ⟨-, rfl⟩ | ⟨o, nO, -, hco, hnz, rfl⟩
    · exact hCP
    · exact CountsPos_dset hCP (by have := hCP o nO hco; omega)
  have hnewk : new_com ∈ keys s.com_to_numvertices := by
    rw [← hkc1]
    exact (dget_isSome_iff _ _).mp (by rw [hm]; rfl)
  have hnewr : 0 ≤ new_com ∧ new_com < (k : Int) := (hCK new_com).mp hnewk
  have hnewk1 : new_com ∈ keys s1.com_to_numvertices := by rwa [hkc1]
  refine ⟨?_, ?_, ?_, ?_, ?_, ?_⟩
  · -- density keys within range
    rw [hs']
    intro c hc
    rcases (mem_keys_dset _).mp hc with hc' | rfl
    · exact hDK1 c hc'
    · exact hnewr
  · -- count keys exactly the range
    rw [hs']
    intro c
    show c ∈ keys (dset s1.com_to_numvertices new_com (m + 1)) ↔ _
    rw [keys_dset_of_mem _ hnewk1, hkc1]
    exact hCK c
  · -- labels in range
    rw [hs']
    intro p hp
    rcases mem_dset (by rwa [hcomm1] at hp) with hp' | rfl
    · exact hLR p hp'
    · exact hnewr
  · -- unique vertices in the labeling
    rw [hs']
    show (keys (dset s1.communities vertex new_com)).Nodup
    rw [hcomm1]
    exact nodup_keys_dset _ hND
  · -- counts synchronised with the labeling
    rw [hs']
    show SyncInv (dset s1.communities vertex new_com)
      (dset s1.com_to_numvertices new_com (m + 1))
    rcases h1 with ⟨hA, hs1⟩ | ⟨old, nOld, hvold, hCold, hnz, hs1⟩
    · rw [hs1] at hm ⊢
      rcases hA with hvnone | ⟨old, hvold, hColdn⟩
      · exact syncInv_relabel_none hSY hvnone hm
      · exact syncInv_relabel_miss hSY hvold hColdn hm
    · rw [hs1] at hm ⊢
      exact syncInv_relabel_dec hSY hvold hCold hm
  · -- counts stay positive
    rw [hs']
    exact CountsPos_dset hCP1 (by have := hCP1 new_com m hm; omega)

theorem engGood_updateVertex {G : Graph} {md : Rat} {k : Nat} {s : EngState} {vertex : Nat}
    {cont : Bool} {s' : EngState} {cont' : Bool}
    (hok : updateVertex G md s vertex cont = .ok (s', cont'))
    (hg : EngGood k s) : EngGood k s' := by
  rcases updateVertex_ok_cases hok with ⟨rfl, -⟩ | ⟨new_com, hrel⟩
  · exact hg
  · exact engGood_applyRelabel hrel hg

theorem engGood_fluidc_modified {G : Graph} {md : Rat} {k : Nat} {vertices : List Nat}
    {communities : List (Nat × Int)} {density : List (Int × Rat)}
    {counts : List (Int × Int)} {mi : Nat} {groups : List (List Nat)}
    {s' : EngState} {passes : Nat}
    (hok : fluidc_modified G vertices communities density md counts mi
      = .ok (groups, s', passes))
    (hg : EngGood k ⟨communities, density, counts⟩) :
    EngGood k s' ∧ groups = (invert_dict s'.communities).map Prod.snd :=
  fluidc_modified_pres (EngGood k)
    (fun _ _ _ _ _ h hgs => engGood_updateVertex h hgs) hok hg

theorem mem_firstLabelsEx :
    ∀ (d : List (Nat × Int)) (seen : List Int) (c : Int),
      c ∈ firstLabelsEx seen d ↔ (c ∈ d.map Prod.snd ∧ c ∉ seen) := by
  intro d
  induction d with
  | nil => intro seen c; simp [firstLabelsEx]
  | cons p rest ih =>
    intro seen c
    rw [firstLabelsEx]
    by_cases hs : seen.contains p.2
    · rw [if_pos hs, ih]
      have hps : p.2 ∈ seen := List.elem_iff.mp hs
      simp only [List.map_cons, List.mem_cons]
      constructor
      · rintro ⟨hm, hns⟩
        exact ⟨Or.inr hm, hns⟩
      · rintro ⟨rfl | hm, hns⟩
        · exact absurd hps hns
        · exact ⟨hm, hns⟩
    · rw [if_neg hs]
      have hps : p.2 ∉ seen := fun hm => hs (List.elem_iff.mpr hm)
      simp only [List.map_cons, List.mem_cons, ih]
      constructor
      · rintro (rfl | ⟨hm, hns⟩)
        · exact ⟨Or.inl rfl, hps⟩
        · refine ⟨Or.inr hm, fun hcs => hns ?_⟩
          simp [hcs]
      · rintro ⟨rfl | hm, hns⟩
        · exact Or.inl rfl
        · by_cases hcp : c = p.2
          · exact Or.inl hcp
          · refine Or.inr ⟨hm, ?_⟩
            simp [hns, hcp]

theorem firstLabelsEx_nodup :
    ∀ (d : List (Nat × Int)) (seen : List Int), (firstLabelsEx seen d).Nodup := by
  intro d
  induction d with
  | nil => intro seen; simp [firstLabelsEx]
  | cons p rest ih =>
    intro seen
    rw [firstLabelsEx]
    by_cases hs : seen.contains p.2
    · rw [if_pos hs]
      exact ih seen
    · rw [if_neg hs]
      refine List.nodup_cons.mpr ⟨?_, ih _⟩
      intro hmem
      exact (firstLabelsEx_not_mem_seen rest (seen ++ [p.2]) p.2 hmem) (by simp)

theorem mem_range_map_ofNat (k : Nat) (c : Int) :
    c ∈ (List.range k).map Int.ofNat ↔ (0 ≤ c ∧ c < (k : Int)) := by
  simp only [List.mem_map, List.mem_range, Int.ofNat_eq_coe]
  constructor
  · rintro ⟨i, hi, rfl⟩
    omega
  · rintro ⟨h0, hk⟩
    exact ⟨c.toNat, by omega, by omega⟩

theorem nodup_range_map_ofNat (k : Nat) : ((List.range k).map Int.ofNat).Nodup :=
  (List.nodup_range k).map (fun a b h => Int.ofNat.inj h)

/-- In a well-formed engine state the groups created by `_invert_dict` are one
per community id `0 .. k-1` (in first-appearance order), so there are exactly
`k` of them. -/
theorem firstLabels_length_of_good {k : Nat} {s : EngState} (hg : EngGood k s) :
    (firstLabels s.communities).length = k := by
  obtain ⟨-, hCK, hLR, -, hSY, hCP⟩ := hg
  have hext : ∀ c : Int,
      c ∈ firstLabels s.communities ↔ c ∈ (List.range k).map Int.ofNat := by
    intro c
    rw [mem_range_map_ofNat, firstLabels, mem_firstLabelsEx]
    simp only [List.not_mem_nil, not_false_iff, and_true]
    constructor
    · intro hm
      rcases List.mem_map.mp hm with ⟨p, hp, rfl⟩
      exact hLR p hp
    · rintro ⟨h0, hk⟩
      have hkc : c ∈ keys s.com_to_numvertices := (hCK c).mpr ⟨h0, hk⟩
      obtain ⟨n, hn⟩ := Option.isSome_iff_exists.mp ((dget_isSome_iff _ _).mpr hkc)
      have h1 : (1 : Int) ≤ n := hCP _ _ hn
      have h2 : n = (countVal s.communities c : Int) := hSY _ _ hn
      have hpos : 0 < (s.communities.filter (fun p => p.2 = c)).length := by
        have hcp : 0 < countVal s.communities c := by omega
        simpa [countVal] using hcp
      obtain ⟨p, hp⟩ := List.exists_mem_of_length_pos hpos
      have hp' := List.mem_filter.mp hp
      exact List.mem_map.mpr ⟨p, hp'.1, by simpa using hp'.2⟩
  have hperm := (List.perm_ext_iff_of_nodup (firstLabelsEx_nodup _ [])
    (nodup_range_map_ofNat k)).mpr hext
  simpa using hperm.length_eq

theorem invert_groups_eq (d : List (Nat × Int)) :
    (invert_dict d).map Prod.snd
      = (firstLabels d).map (fun c => (d.filter (fun p => p.2 = c)).map Prod.fst) := by
  rw [invert_dict_eq, List.map_map]
  rfl

theorem groups_length_of_good {k : Nat} {s : EngState} (hg : EngGood k s) :
    ((invert_dict s.communities).map Prod.snd).length = k := by
  rw [invert_groups_eq, List.length_map]
  exact firstLabels_length_of_good hg

/-- When the labeling dict has unique vertex keys, the groups produced by
`_invert_dict` are pairwise disjoint. -/
theorem invertGroups_disjoint {d : List (Nat × Int)} (hnd : (keys d).Nodup) :
    ∀ i j : Nat, i < j → j < ((invert_dict d).map Prod.snd).length →
      ∀ v, v ∈ ((invert_dict d).map Prod.snd).getD i [] →
        v ∉ ((invert_dict d).map Prod.snd).getD j [] := by
  intro i j hij hj v hvi hvj
  rw [invert_groups_eq] at hvi hvj hj
  rw [List.length_map] at hj
  have hi : i < (firstLabels d).length := by omega
  rw [List.getD_eq_getElem _ _ (by simpa using hi), List.getElem_map] at hvi
  rw [List.getD_eq_getElem _ _ (by simpa using hj), List.getElem_map] at hvj
  rcases List.mem_map.mp hvi with ⟨p, hpf, hpv⟩
  have hp := List.mem_filter.mp hpf
  rcases List.mem_map.mp hvj with ⟨q, hqf, hqv⟩
  have hq := List.mem_filter.mp hqf
  have hpd : dget d v = some ((firstLabels d).get ⟨i, hi⟩) := by
    have h1 := dget_eq_of_mem_nodup hp.1 hnd
    rw [hpv] at h1
    have h2 : p.2 = (firstLabels d).get ⟨i, hi⟩ := by
      have h3 := hp.2
      simp only [decide_eq_true_eq] at h3
      simpa [List.get_eq_getElem] using h3
    rw [h2] at h1
    exact h1
  have hqd : dget d v = some ((firstLabels d).get ⟨j, hj⟩) := by
    have h1 := dget_eq_of_mem_nodup hq.1 hnd
    rw [hqv] at h1
    have h2 : q.2 = (firstLabels d).get ⟨j, hj⟩ := by
      have h3 := hq.2
      simp only [decide_eq_true_eq] at h3
      simpa [List.get_eq_getElem] using h3
    rw [h2] at h1
    exact h1
  have heq : (firstLabels d).get ⟨i, hi⟩ = (firstLabels d).get ⟨j, hj⟩ := by
    have := hpd.symm.trans hqd
    exact Option.some.inj this
  have hnd' := firstLabelsEx_nodup d []
  have hfin : (⟨i, hi⟩ : Fin (firstLabels d).length) = ⟨j, hj⟩ :=
    (List.Nodup.get_inj_iff hnd').mp heq
  have : i = j := congrArg Fin.val hfin
  omega

theorem seedPool_shrink {group removed : List Nat} {new_v : Nat}
    (hmem : new_v ∈ seedPool group removed) :
    (seedPool group (removed ++ [new_v])).length < (seedPool group removed).length := by
  have hsub : seedPool group (removed ++ [new_v])
      = (seedPool group removed).filter (fun v => !(decide (v = new_v))) := by
    simp only [seedPool, List.filter_filter]
    apply List.filter_congr
    intro x _
    simp [List.contains, List.elem_eq_mem, Bool.and_comm, eq_comm]
  rw [hsub]
  apply List.length_filter_lt_length_iff_exists.mpr
  exact ⟨new_v, hmem, by simp⟩

theorem seedPool_subset {group removed : List Nat} {v : Nat}
    (h : v ∈ seedPool group removed) : v ∈ group :=
  List.mem_dedup.mp (List.mem_filter.mp h).1

theorem seedPool_pick_mem {pool : List Nat} (hp : pool ≠ []) (i : Nat) :
    pool.getD (i % pool.length) 0 ∈ pool := by
  have hlen : i % pool.length < pool.length := Nat.mod_lt _ (List.length_pos.mpr hp)
  rw [List.getD_eq_getElem _ _ hlen]
  exact List.getElem_mem hlen

theorem seedLoop_unfold_lt (pick : Nat → Nat) (groups : List (List Nat))
    (bad : List (Nat × Int)) (seed : List (Nat × Int)) (idx : Nat)
    (removed : List Nat) (t : Nat) (hidx : idx < groups.length) :
    seedLoop pick groups bad seed idx removed t =
      (if seedPool (groups.getD idx []) removed = [] then (seed, true, t)
       else
         if (bad.map Prod.fst).contains
             ((seedPool (groups.getD idx []) removed).getD
               (pick t % (seedPool (groups.getD idx []) removed).length) 0) then
           seedLoop pick groups bad seed idx
             (removed ++ [(seedPool (groups.getD idx []) removed).getD
               (pick t % (seedPool (groups.getD idx []) removed).length) 0]) (t + 1)
         else
           seedLoop pick groups bad
             (dset seed ((seedPool (groups.getD idx []) removed).getD
               (pick t % (seedPool (groups.getD idx []) removed).length) 0) (idx : Int))
             (idx + 1) [] (t + 1)) := by
  rw [seedLoop, dif_pos hidx]
  rfl

/-- One community of the seed-derivation loop: either its pool is exhausted
after some rejections (the seed set is returned unchanged with the exhaustion
flag), or a vertex of the community is accepted and the loop moves to the
next community with a reset rejection list. -/
theorem seedLoop_one (pick : Nat → Nat) (groups : List (List Nat))
    (bad : List (Nat × Int)) (idx : Nat) (hidx : idx < groups.length) :
    ∀ (fuel : Nat) (removed : List Nat) (seed : List (Nat × Int)) (t : Nat),
      (seedPool (groups.getD idx []) removed).length ≤ fuel →
      (∃ t', seedLoop pick groups bad seed idx removed t = (seed, true, t')) ∨
      (∃ v t', v ∈ groups.getD idx [] ∧
        seedLoop pick groups bad seed idx removed t
          = seedLoop pick groups bad (dset seed v (idx : Int)) (idx + 1) [] t') := by
  intro fuel
  induction fuel with
  | zero =>
    intro removed seed t hf
    have hp : seedPool (groups.getD idx []) removed = [] :=
      List.length_eq_zero.mp (by omega)
    rw [seedLoop_unfold_lt pick groups bad seed idx removed t hidx, if_pos hp]
    exact Or.inl ⟨t, rfl⟩
  | succ fuel ih =>
    intro removed seed t hf
    rw [seedLoop_unfold_lt pick groups bad seed idx removed t hidx]
    by_cases hp : seedPool (groups.getD idx []) removed = []
    · rw [if_pos hp]
      exact Or.inl ⟨t, rfl⟩
    · rw [if_neg hp]
      have hmem : (seedPool (groups.getD idx []) removed).getD
          (pick t % (seedPool (groups.getD idx []) removed).length) 0
          ∈ seedPool (groups.getD idx []) removed := seedPool_pick_mem hp (pick t)
      by_cases hb : (bad.map Prod.fst).contains
          ((seedPool (groups.getD idx []) removed).getD
            (pick t % (seedPool (groups.getD idx []) removed).length) 0)
      · rw [if_pos hb]
        have hlen : (seedPool (groups.getD idx [])
            (removed ++ [(seedPool (groups.getD idx []) removed).getD
              (pick t % (seedPool (groups.getD idx []) removed).length) 0])).length
            ≤ fuel := by
          have := seedPool_shrink hmem
          omega
        exact ih _ seed (t + 1) hlen
      · rw [if_neg hb]
        exact Or.inr ⟨_, t + 1, seedPool_subset hmem, rfl⟩

/-- The whole seed-derivation loop, started at community `idx` with a seed
set already covering communities `0 .. idx-1` by distinct vertices untouched
by the remaining groups: either it aborts with the exhaustion flag, or it
completes a seed set with unique vertex keys whose values are exactly
`0 .. groups.length - 1` in order. -/
theorem seedLoop_run (pick : Nat → Nat) (groups : List (List Nat))
    (bad : List (Nat × Int))
    (hdisj : ∀ i j : Nat, i < j → j < groups.length →
      ∀ v, v ∈ groups.getD i [] → v ∉ groups.getD j []) :
    ∀ (rem idx : Nat) (seed : List (Nat × Int)) (removed : List Nat) (t : Nat),
      groups.length ≤ idx + rem → idx ≤ groups.length →
      (keys seed).Nodup →
      seed.map Prod.snd = (List.range idx).map Int.ofNat →
      (∀ v ∈ keys seed, ∀ j, idx ≤ j → j < groups.length → v ∉ groups.getD j []) →
      (seedLoop pick groups bad seed idx removed t).2.1 = true ∨
        ((keys (seedLoop pick groups bad seed idx removed t).1).Nodup ∧
          (seedLoop pick groups bad seed idx removed t).1.map Prod.snd
            = (List.range groups.length).map Int.ofNat) := by
  intro rem
  induction rem with
  | zero =>
    intro idx seed removed t hlen hle hnd hvals hfresh
    have hidx : idx = groups.length := by omega
    subst hidx
    rw [seedLoop, dif_neg (by omega)]
    exact Or.inr ⟨hnd, hvals⟩
  | succ rem ih =>
    intro idx seed removed t hlen hle hnd hvals hfresh
    by_cases hidx : idx < groups.length
    · rcases seedLoop_one pick groups bad idx hidx
        ((seedPool (groups.getD idx []) removed).length) removed seed t le_rfl with
        ⟨t', hout⟩ | ⟨v, t', hv, hout⟩
      · rw [hout]
        exact Or.inl rfl
      · rw [hout]
        have hvnot : v ∉ keys seed := fun hm => hfresh v hm idx le_rfl hidx hv
        have hseed' : dset seed v (idx : Int) = seed ++ [(v, (idx : Int))] :=
          dset_of_not_mem _ hvnot
        have hnd' : (keys (dset seed v (idx : Int))).Nodup := by
          rw [hseed']
          simp only [keys, List.map_append, List.map_cons, List.map_nil]
          rw [List.nodup_append]
          refine ⟨hnd, List.nodup_singleton _, ?_⟩
          intro a ha hav
          have hae : a = v := by simpa using hav
          subst hae
          exact hvnot ha
        have hvals' : (dset seed v (idx : Int)).map Prod.snd
            = (List.range (idx + 1)).map Int.ofNat := by
          rw [hseed', List.range_succ]
          simp only [List.map_append, List.map_cons, List.map_nil, hvals, Int.ofNat_eq_coe]
        have hfresh' : ∀ w ∈ keys (dset seed v (idx : Int)),
            ∀ j, idx + 1 ≤ j → j < groups.length → w ∉ groups.getD j [] := by
          intro w hw j hj1 hj2
          rw [hseed'] at hw
          simp only [keys, List.map_append, List.map_cons, List.map_nil,
            List.mem_append, List.mem_singleton] at hw
          rcases hw with hw | rfl
          · exact hfresh w hw j (by omega) hj2
          · exact hdisj idx j (by omega) hj2 w hv
        exact ih (idx + 1) (dset seed v (idx : Int)) [] t' (by omega) (by omega)
          hnd' hvals' hfresh'
    · have hidx' : idx = groups.length := by omega
      subst hidx'
      rw [seedLoop, dif_neg (by omega)]
      exact Or.inr ⟨hnd, hvals⟩

theorem seedInit_fst (md : Rat) :
    ∀ (seed : List (Nat × Int)) (density : List (Int × Rat)) (counts : List (Int × Int)),
      (seedInit md seed density counts).1
        = seed.foldl (fun d p => dset d p.2 md) density := by
  intro seed
  induction seed with
  | nil => intro density counts; rfl
  | cons p rest ih =>
    intro density counts
    have h := ih (dset density p.2 md) (dset counts p.2 1)
    simp only [seedInit] at h ⊢
    simp only [List.foldl_cons]
    exact h

theorem seedInit_snd (md : Rat) :
    ∀ (seed : List (Nat × Int)) (density : List (Int × Rat)) (counts : List (Int × Int)),
      (seedInit md seed density counts).2
        = seed.foldl (fun d p => dset d p.2 (1 : Int)) counts := by
  intro seed
  induction seed with
  | nil => intro density counts; rfl
  | cons p rest ih =>
    intro density counts
    have h := ih (dset density p.2 md) (dset counts p.2 1)
    simp only [seedInit] at h ⊢
    simp only [List.foldl_cons]
    exact h

theorem dget_fold_dset {β : Type} (w : β) :
    ∀ (vals : List Int) (d : List (Int × β)) (c : Int),
      dget (vals.foldl (fun d v => dset d v w) d) c
        = if c ∈ vals then some w else dget d c := by
  intro vals
  induction vals with
  | nil => intro d c; simp
  | cons v rest ih =>
    intro d c
    rw [List.foldl_cons, ih]
    by_cases hc : c ∈ rest
    · simp [hc]
    · by_cases hcv : c = v
      · subst hcv
        simp [hc, dget_dset_self]
      · simp [hc, hcv, dget_dset_ne _ _ hcv]

theorem foldl_dset_pairs {β : Type} (w : β) (seed : List (Nat × Int)) (d : List (Int × β)) :
    seed.foldl (fun d p => dset d p.2 w) d
      = (seed.map Prod.snd).foldl (fun d v => dset d v w) d := by
  rw [List.foldl_map]

/-- Fresh member counts per restart: after the seed initialization the count
dict holds exactly the communities `0 .. k-1` seeded this round, each with
count 1, and nothing else — every entry surviving from a previous restart
(its key lies in `0 .. k-1`) is overwritten. -/
theorem seedInit_counts_fresh {md : Rat} {seed : List (Nat × Int)}
    {density : List (Int × Rat)} {counts : List (Int × Int)} {k : Nat}
    (hvals : seed.map Prod.snd = (List.range k).map Int.ofNat)
    (hkeys : ∀ c ∈ keys counts, 0 ≤ c ∧ c < (k : Int)) :
    ∀ c : Int, dget (seedInit md seed density counts).2 c
      = if 0 ≤ c ∧ c < (k : Int) then some 1 else none := by
  intro c
  rw [seedInit_snd, foldl_dset_pairs, dget_fold_dset, hvals]
  by_cases hc : 0 ≤ c ∧ c < (k : Int)
  · rw [if_pos ((mem_range_map_ofNat k c).mpr hc), if_pos hc]
  · rw [if_neg (fun hm => hc ((mem_range_map_ofNat k c).mp hm)), if_neg hc]
    exact (dget_eq_none_iff _ _).mpr (fun hm => hc (hkeys c hm))

/-- Fresh densities per restart: after the seed initialization the density
dict holds exactly the seeded communities `0 .. k-1`, each at `max_density`,
and nothing else. -/
theorem seedInit_density_fresh {md : Rat} {seed : List (Nat × Int)}
    {density : List (Int × Rat)} {counts : List (Int × Int)} {k : Nat}
    (hvals : seed.map Prod.snd = (List.range k).map Int.ofNat)
    (hkeys : ∀ c ∈ keys density, 0 ≤ c ∧ c < (k : Int)) :
    ∀ c : Int, dget (seedInit md seed density counts).1 c
      = if 0 ≤ c ∧ c < (k : Int) then some md else none := by
  intro c
  rw [seedInit_fst, foldl_dset_pairs, dget_fold_dset, hvals]
  by_cases hc : 0 ≤ c ∧ c < (k : Int)
  · rw [if_pos ((mem_range_map_ofNat k c).mpr hc), if_pos hc]
  · rw [if_neg (fun hm => hc ((mem_range_map_ofNat k c).mp hm)), if_neg hc]
    exact (dget_eq_none_iff _ _).mpr (fun hm => hc (hkeys c hm))

theorem buildSeed_aux :
    ∀ (vs : List Nat) (n : Nat) (acc : List (Nat × Int)),
      vs.Nodup → (∀ v ∈ vs, v ∉ keys acc) →
      keys ((vs.enumFrom n).foldl (fun acc p => dset acc p.2 (p.1 : Int)) acc)
          = keys acc ++ vs ∧
        ((vs.enumFrom n).foldl (fun acc p => dset acc p.2 (p.1 : Int)) acc).map Prod.snd
          = acc.map Prod.snd ++ (List.range' n vs.length).map Int.ofNat := by
  intro vs
  induction vs with
  | nil => intro n acc _ _; simp [List.enumFrom]
  | cons v rest ih =>
    intro n acc hnd hfr
    have hnotin : v ∉ keys acc := hfr v (List.mem_cons_self _ _)
    have hset : dset acc v (n : Int) = acc ++ [(v, (n : Int))] :=
      dset_of_not_mem _ hnotin
    have hfr' : ∀ w ∈ rest, w ∉ keys (dset acc v (n : Int)) := by
      intro w hw hmem
      rw [hset] at hmem
      simp only [keys, List.map_append, List.map_cons, List.map_nil, List.mem_append,
        List.mem_singleton] at hmem
      rcases hmem with hmem | rfl
      · exact hfr w (List.mem_cons_of_mem _ hw) hmem
      · exact (List.nodup_cons.mp hnd).1 hw
    obtain ⟨hk, hv⟩ := ih (n + 1) (dset acc v (n : Int)) (List.nodup_cons.mp hnd).2 hfr'
    constructor
    · rw [show (v :: rest).enumFrom n = (n, v) :: rest.enumFrom (n + 1) from rfl,
        List.foldl_cons, hk, hset]
      simp [keys]
    · rw [show (v :: rest).enumFrom n = (n, v) :: rest.enumFrom (n + 1) from rfl,
        List.foldl_cons, hv, hset]
      rw [show (v :: rest).length = rest.length + 1 from rfl, List.range'_succ]
      simp [Int.ofNat_eq_coe]

theorem buildSeedDict_spec {vs : List Nat} (hnd : vs.Nodup) :
    keys (buildSeedDict vs) = vs ∧
      (buildSeedDict vs).map Prod.snd = (List.range vs.length).map Int.ofNat := by
  have h := buildSeed_aux vs 0 [] hnd (by simp [keys])
  rw [List.range_eq_range']
  simpa [buildSeedDict, keys, List.enum] using h

/-- The state built by `fluidc_plus` before its restart loop is well-formed:
the initial random seed dict maps `k` distinct vertices to the communities
`0 .. k-1` in order, and the bookkeeping dicts are empty. -/
theorem ctrlGood_ctrlInit {G : Graph} {k : Nat} {oracle : RandomOracle}
    (hperm : (oracle.shuffle (List.range G.n)).Perm (List.range G.n))
    (hk : k ≤ G.n) : CtrlGood k (ctrlInit G k oracle) := by
  have hnd : (oracle.shuffle (List.range G.n)).Nodup :=
    hperm.nodup_iff.mpr (List.nodup_range _)
  have hlen : (oracle.shuffle (List.range G.n)).length = G.n := by
    simpa using hperm.length_eq
  have htake : ((oracle.shuffle (List.range G.n)).take k).Nodup :=
    List.Nodup.sublist (List.take_sublist _ _) hnd
  have htlen : ((oracle.shuffle (List.range G.n)).take k).length = k := by
    rw [List.length_take, hlen]
    omega
  obtain ⟨hkeys, hvals⟩ := buildSeedDict_spec htake
  refine ⟨?_, ?_, ?_, ?_⟩
  · show (keys (buildSeedDict ((oracle.shuffle (List.range G.n)).take k))).Nodup
    rw [hkeys]
    exact htake
  · show (buildSeedDict ((oracle.shuffle (List.range G.n)).take k)).map Prod.snd = _
    rw [hvals, htlen]
  · intro c hc
    simp [ctrlInit, keys] at hc
  · intro c hc
    simp [ctrlInit, keys] at hc

/-- One restart preserves controller-level well-formedness, unless the next
seed derivation was exhausted, in which case the counter was forced to 10. -/
theorem ctrlGood_restartStep {G : Graph} {k mi : Nat}
    {scorer : List Int → List Int → Rat} {oracle : RandomOracle}
    {s s' : CtrlState} (hg : CtrlGood k s)
    (hok : restartStep G mi scorer oracle s = .ok s') :
    CtrlGood k s' ∨ s'.seed_init_num = 10 := by
  obtain ⟨hnd, hvals, hdk, hck⟩ := hg
  rw [restartStep] at hok
  split at hok
  · exact Except.noConfusion hok
  · rename_i groups es passes heq
    have hs' : s' = restartFinish G.n scorer oracle s groups es := (Except.ok.inj hok).symm
    have hfreshC := @seedInit_counts_fresh max_density s.seed_set s.density
      s.com_to_numvertices k hvals hck
    have hfreshD := @seedInit_density_fresh max_density s.seed_set s.density
      s.com_to_numvertices k hvals hdk
    have hEG0 : EngGood k ⟨s.seed_set,
        (seedInit max_density s.seed_set s.density s.com_to_numvertices).1,
        (seedInit max_density s.seed_set s.density s.com_to_numvertices).2⟩ := by
      refine ⟨?_, ?_, ?_, hnd, ?_, ?_⟩
      · intro c hc
        have hsome := (dget_isSome_iff _ _).mpr hc
        rw [hfreshD c] at hsome
        by_cases hr : 0 ≤ c ∧ c < (k : Int)
        · exact hr
        · rw [if_neg hr] at hsome
          exact absurd hsome (by simp)
      · intro c
        rw [← dget_isSome_iff, hfreshC c]
        by_cases hr : 0 ≤ c ∧ c < (k : Int) <;> simp [hr]
      · intro p hp
        have hm : p.2 ∈ s.seed_set.map Prod.snd := List.mem_map.mpr ⟨p, hp, rfl⟩
        rw [hvals] at hm
        exact (mem_range_map_ofNat k p.2).mp hm
      · intro c n hn
        rw [hfreshC c] at hn
        by_cases hr : 0 ≤ c ∧ c < (k : Int)
        · rw [if_pos hr] at hn
          have hn1 : n = 1 := (Option.some.inj hn).symm
          have hcount : countVal s.seed_set c = 1 := by
            rw [countVal_eq_count, hvals]
            exact List.count_eq_one_of_mem (nodup_range_map_ofNat k)
              ((mem_range_map_ofNat k c).mpr hr)
          rw [hn1, hcount]
          simp
        · rw [if_neg hr] at hn
          exact absurd hn (by simp)
      · intro c n hn
        rw [hfreshC c] at hn
        by_cases hr : 0 ≤ c ∧ c < (k : Int)
        · rw [if_pos hr] at hn
          have hn1 : n = 1 := (Option.some.inj hn).symm
          omega
        · rw [if_neg hr] at hn
          exact absurd hn (by simp)
    obtain ⟨hEG, hgroups⟩ := engGood_fluidc_modified heq hEG0
    have hlen : groups.length = k := by
      rw [hgroups]
      exact groups_length_of_good hEG
    have hdisj : ∀ i j : Nat, i < j → j < groups.length →
        ∀ v, v ∈ groups.getD i [] → v ∉ groups.getD j [] := by
      intro i j hij hj v hv
      rw [hgroups] at hj hv ⊢
      exact invertGroups_disjoint hEG.2.2.2.1 i j hij hj v hv
    have hrun := seedLoop_run oracle.pick groups
      (scoreGate scorer s.iter (nodes_color G.n groups) s.old_communities s.min_NMI
        s.bad_seed_set s.seed_set s.seed_init_num s.nmi_list).2.1 hdisj
      groups.length 0 [] [] s.t (by omega) (by omega) (by simp [keys]) (by simp)
      (by intro v hv; simp [keys] at hv)
    rw [hs']
    by_cases hflag : (seedLoop oracle.pick groups
        (scoreGate scorer s.iter (nodes_color G.n groups) s.old_communities s.min_NMI
          s.bad_seed_set s.seed_set s.seed_init_num s.nmi_list).2.1 [] 0 [] s.t).2.1 = true
    · right
      simp only [restartFinish]
      rw [if_pos hflag]
    · left
      rcases hrun with htrue | ⟨hsnd, hsval⟩
      · exact absurd htrue hflag
      · rw [hlen] at hsval
        exact ⟨hsnd, hsval, hEG.1, fun c hc => (hEG.2.1 c).mp hc⟩

/-- **C9**: fresh bookkeeping per restart. In a well-formed controller state
(`CtrlGood`: the seed dict maps distinct vertices to exactly the communities
`0 .. k-1`, the two bookkeeping dicts hold keys within `0 .. k-1`), the
density and member-count dicts handed to the Engine at the start of a restart
hold exactly the `k` communities seeded this round — each with count 1 and
density `max_density` — and no entry left over from a previous restart.
Moreover well-formedness holds at the start of every restart: it holds at
initialization (whenever the shuffle permutes the vertex list and `k ≤ n`),
and each successful restart re-establishes it for the next one, except when
the seed derivation was exhausted, which instead forces the counter to 10 and
ends the restart loop. -/
theorem C9_fresh_bookkeeping (G : Graph) (k mi : Nat)
    (scorer : List Int → List Int → Rat) (oracle : RandomOracle)
    (s s' : CtrlState)
    (hG : CtrlGood k s)
    (hperm : (oracle.shuffle (List.range G.n)).Perm (List.range G.n))
    (hk : k ≤ G.n)
    (hok : restartStep G mi scorer oracle s = .ok s') :
    (∀ c : Int,
      dget (seedInit max_density s.seed_set s.density s.com_to_numvertices).2 c
        = (if 0 ≤ c ∧ c < (k : Int) then some 1 else none) ∧
      dget (seedInit max_density s.seed_set s.density s.com_to_numvertices).1 c
        = (if 0 ≤ c ∧ c < (k : Int) then some max_density else none)) ∧
    CtrlGood k (ctrlInit G k oracle) ∧
    (CtrlGood k s' ∨ s'.seed_init_num = 10) := by
  obtain ⟨hnd, hvals, hdk, hck⟩ := hG
  exact ⟨fun c => ⟨seedInit_counts_fresh hvals hck c,
      @seedInit_density_fresh max_density s.seed_set s.density s.com_to_numvertices k hvals hdk c⟩,
    ctrlGood_ctrlInit hperm hk,
    ctrlGood_restartStep ⟨hnd, hvals, hdk, hck⟩ hok⟩

theorem C9_witness :
    (CtrlGood 2 (ctrlInit ringG 2 oracle0) ∧ 2 ≤ ringG.n) ∧
    ((∀ c : Int,
      dget (seedInit max_density (ctrlInit ringG 2 oracle0).seed_set
        (ctrlInit ringG 2 oracle0).density
        (ctrlInit ringG 2 oracle0).com_to_numvertices).2 c
        = (if 0 ≤ c ∧ c < (2 : Int) then some 1 else none) ∧
      dget (seedInit max_density (ctrlInit ringG 2 oracle0).seed_set
        (ctrlInit ringG 2 oracle0).density
        (ctrlInit ringG 2 oracle0).com_to_numvertices).1 c
        = (if 0 ≤ c ∧ c < (2 : Int) then some max_density else none)) ∧
    CtrlGood 2 (ctrlInit ringG 2 oracle0) ∧
    (CtrlGood 2 ⟨[(3, 0), (2, 1)], [(0, 0), (1, 1)], [(0, 1/2), (1, 1/2)],
        [(0, 2), (1, 2)], 1, 0, 1, some [0, 1, 1, 0], some [[0, 3], [1, 2]], [], 4⟩ ∨
      (⟨[(3, 0), (2, 1)], [(0, 0), (1, 1)], [(0, 1/2), (1, 1/2)], [(0, 2), (1, 2)],
        1, 0, 1, some [0, 1, 1, 0], some [[0, 3], [1, 2]], [], 4⟩ :
          CtrlState).seed_init_num = 10)) := by
  have hg : CtrlGood 2 (ctrlInit ringG 2 oracle0) :=
    ctrlGood_ctrlInit (List.Perm.refl _) (by decide)
  exact ⟨⟨hg, by decide⟩,
    C9_fresh_bookkeeping ringG 2 1 zeroScorer oracle0 (ctrlInit ringG 2 oracle0) _
      hg (List.Perm.refl _) (by decide) ringCtrlStep⟩

end FluidC
